import Mathlib

/-!
# Virtual-Memory Simulator (Go) — shallow embedding and verification

This file embeds the core of `src/main.go` of the repository
`chrisesf/Virtual-Memory-Simulator-GO`: the FIFO page-replacement
simulator (`fifoAlgorithm`), the optimal page-replacement simulator
(`optimalAlgorithmOptimized`), and the trace preprocessing performed in
`main` that builds `pagePositions`.

Modelling choices:
* A page identifier (`PageID`) is a `String`, exactly as in Go.
* `numFrames` is a Go `int`, embedded as `Int` (it can be zero or
  negative when the caller's guard is bypassed, and the simulators
  compare it against lengths).
* Go maps with `int`-valued entries read through the zero value for
  missing keys; `loadCounts` and `pagePositions` are embedded as
  association lists (so that the *domain* of the map is part of the
  model), `nextUseCursor` as a total function `PageID → Nat` with
  initial value `fun _ => 0` (Go's zero value for a missing key).
* `pageInMmemorySet` in the Go code mirrors membership of
  `memoryFrames` exactly (a page is inserted into / removed from both
  together, and a page is added only when absent); the embedding tests
  membership on the frames list directly.
* A run that panics in Go (nil `Front()` of an empty `list.List`,
  index `-1` into `memoryFrames`) is embedded as `none`.
* The `didacticMode` prints go to stdout; they are embedded as a list
  of `DidacticEvent` values carrying the data that is printed, returned
  next to the `SimulationResult`, so that the instrumentation is part
  of the model but separate from the simulation outcome.
-/

abbrev PageID := String

/-- `SimulationResult` from `main.go`: total page faults plus the count
of loads per page (`loadCounts`, a Go map embedded as an association
list in insertion order, keys distinct). -/
structure SimulationResult where
  pageFaults : Nat
  loadCounts : List (PageID × Nat)
deriving Repr, DecidableEq

/-- `result.loadCounts[page]++` on a Go `map[string]int`: a missing key
reads as `0`, so the first bump inserts the key with count `1`. -/
def bumpLoad : List (PageID × Nat) → PageID → List (PageID × Nat)
  | [], p => [(p, 1)]
  | (q, c) :: rest, p =>
    if q = p then (q, c + 1) :: rest else (q, c) :: bumpLoad rest p

/-- Sum of the values of a `loadCounts` map. -/
def sumLoads (l : List (PageID × Nat)) : Nat :=
  (l.map Prod.snd).sum

/-- Keys of a `loadCounts` map. -/
def loadKeys (l : List (PageID × Nat)) : List PageID :=
  l.map Prod.fst

/-- Data printed by the didactic (step-by-step) mode; the pure content
of the `fmt.Printf` calls in the two simulators. -/
inductive DidacticEvent where
  /-- "Acessando página" header: 1-based step number and the page. -/
  | access (step : Nat) (page : PageID)
  /-- "Página encontrada (HIT)!". -/
  | hit
  /-- "FALTA DE PáGINA (FAULT)!" with the value of `evictedPage` (the
  empty string when nothing was evicted) and the inserted page. -/
  | fault (evicted : String) (inserted : PageID)
  /-- "Estado da memoria": the frame contents as printed. -/
  | memState (frames : List PageID)
deriving Repr, DecidableEq

/-! ## FIFO simulator (`fifoAlgorithm`, main.go lines 55–100) -/

/-- Mutable state of `fifoAlgorithm`: the `list.List` of resident pages
in arrival order (head = front = oldest) together with the accumulating
`SimulationResult` fields.  `pageInMmemorySet` mirrors membership of
`frames`. -/
structure FifoState where
  frames : List PageID
  pageFaults : Nat
  loadCounts : List (PageID × Nat)

def fifoInit : FifoState := ⟨[], 0, []⟩

/-- One iteration of the `for i, page := range pageReferences` loop of
`fifoAlgorithm`.  `none` embeds the Go panic that occurs when
`memoryFrames.Front()` is `nil` (possible only when `numFrames = 0`).
The returned event list is what didactic mode prints at this step. -/
def fifoStep (numFrames : Int) (didactic : Bool) (i : Nat)
    (st : FifoState) (page : PageID) :
    Option (FifoState × List DidacticEvent) :=
  let accessEv := if didactic then [DidacticEvent.access (i + 1) page] else []
  if st.frames.contains page then
    -- hit: no state change
    some (st, accessEv
      ++ (if didactic then [DidacticEvent.hit] else [])
      ++ (if didactic then [DidacticEvent.memState st.frames] else []))
  else
    -- miss: count the fault and the load
    let faults := st.pageFaults + 1
    let loads := bumpLoad st.loadCounts page
    if (st.frames.length : Int) = numFrames then
      match st.frames with
      | [] => none  -- memoryFrames.Front() is nil: Go panics
      | evictedPage :: rest =>
        let frames' := rest ++ [page]
        some (⟨frames', faults, loads⟩, accessEv
          ++ (if didactic then [DidacticEvent.fault evictedPage page] else [])
          ++ (if didactic then [DidacticEvent.memState frames'] else []))
    else
      let frames' := st.frames ++ [page]
      some (⟨frames', faults, loads⟩, accessEv
        ++ (if didactic then [DidacticEvent.fault "" page] else [])
        ++ (if didactic then [DidacticEvent.memState frames'] else []))

/-- The loop of `fifoAlgorithm` from an arbitrary state, current index
`i`, accumulating didactic events. -/
def fifoRun (numFrames : Int) (didactic : Bool) :
    Nat → FifoState → List PageID →
    Option (FifoState × List DidacticEvent)
  | _, st, [] => some (st, [])
  | i, st, page :: rest =>
    match fifoStep numFrames didactic i st page with
    | none => none
    | some (st', evs) =>
      match fifoRun numFrames didactic (i + 1) st' rest with
      | none => none
      | some (stFinal, evsRest) => some (stFinal, evs ++ evsRest)

/-- `fifoAlgorithm(pageReferences, numFrames, didacticMode)`: the
returned `SimulationResult` paired with everything didactic mode
printed; `none` when the Go code panics. -/
def fifoAlgorithm (pageReferences : List PageID) (numFrames : Int)
    (didacticMode : Bool) : Option (SimulationResult × List DidacticEvent) :=
  (fifoRun numFrames didacticMode 0 fifoInit pageReferences).map
    (fun (st, evs) => (⟨st.pageFaults, st.loadCounts⟩, evs))

/-! ## Trace preprocessing (`main`, main.go lines 232–237)

```go
pagePositions := make(map[string][]int)
for i, page := range pageReferences {
    pagePositions[page] = append(pagePositions[page], i)
}
```
The map is embedded as an association list so that its domain is part
of the model; `append` on the `nil` slice of a missing key inserts the
key with the one-element slice. -/

/-- `pagePositions[page] = append(pagePositions[page], i)`. -/
def posAppend : List (PageID × List Nat) → PageID → Nat →
    List (PageID × List Nat)
  | [], p, i => [(p, [i])]
  | (q, l) :: rest, p, i =>
    if q = p then (q, l ++ [i]) :: rest else (q, l) :: posAppend rest p i

/-- The preprocessing loop from trace position `i` onwards. -/
def buildPositionsFrom (i : Nat) (acc : List (PageID × List Nat)) :
    List PageID → List (PageID × List Nat)
  | [] => acc
  | page :: rest => buildPositionsFrom (i + 1) (posAppend acc page i) rest

/-- `pagePositions` as built by `main` from the whole trace. -/
def buildPositions (pageReferences : List PageID) :
    List (PageID × List Nat) :=
  buildPositionsFrom 0 [] pageReferences

/-- Reading `pagePositions[framePage]` in Go: a missing key yields the
`nil` slice, i.e. the empty list. -/
def posGet (m : List (PageID × List Nat)) (p : PageID) : List Nat :=
  match m.find? (fun e => e.1 = p) with
  | some e => e.2
  | none => []

/-! ## Optimal simulator (`optimalAlgorithmOptimized`, main.go
lines 112–183) -/

/-- Mutable state of `optimalAlgorithmOptimized`: the `memoryFrames`
slice, the per-page read cursor map `nextUseCursor` (total function;
missing key = Go zero value `0`), and the accumulating result fields.
`pageInMmemorySet` mirrors membership of `frames`. -/
structure OptState where
  frames : List PageID
  nextUseCursor : PageID → Nat
  pageFaults : Nat
  loadCounts : List (PageID × Nat)

def optInit : OptState := ⟨[], fun _ => 0, 0, []⟩

/-- The cursor-advance loop
`for cursor < len(positions) && positions[cursor] <= i { cursor++ }`:
the final cursor is the starting cursor plus the length of the maximal
run of entries `≤ i` at the start of `positions.drop cursor`. -/
def countLe (i : Nat) : List Nat → Nat
  | [] => 0
  | x :: rest => if x ≤ i then countLe i rest + 1 else 0

def advanceCursor (positions : List Nat) (i cursor : Nat) : Nat :=
  cursor + countLe i (positions.drop cursor)

/-- The `nextPos` computed for one resident page: the entry at the
advanced cursor, or `-1` when the cursor ran off the end. -/
def nextPosOf (pagePositions : List (PageID × List Nat))
    (cursors : PageID → Nat) (i : Nat) (framePage : PageID) : Int :=
  let positions := posGet pagePositions framePage
  let cursor := advanceCursor positions i (cursors framePage)
  match positions[cursor]? with
  | some v => (v : Int)
  | none => -1

/-- The victim-selection loop
`for frameIdx, framePage := range memoryFrames { ... }` of
`optimalAlgorithmOptimized`: returns the final `victimIndex` and the
updated `nextUseCursor` map.  Cursors of pages after an early `break`
are left untouched, exactly as in the Go loop. -/
def findVictim (pagePositions : List (PageID × List Nat)) (i : Nat) :
    (cursors : PageID → Nat) → (frames : List PageID) →
    (frameIdx : Nat) → (farthest : Int) → (victimIndex : Int) →
    Int × (PageID → Nat)
  | cursors, [], _, _, victimIndex => (victimIndex, cursors)
  | cursors, framePage :: rest, frameIdx, farthest, victimIndex =>
    let positions := posGet pagePositions framePage
    let cursor := advanceCursor positions i (cursors framePage)
    let cursors' := fun q => if q = framePage then cursor else cursors q
    let nextPos : Int :=
      match positions[cursor]? with
      | some v => (v : Int)
      | none => -1
    if nextPos = -1 then
      (frameIdx, cursors')  -- break
    else if farthest < nextPos then
      findVictim pagePositions i cursors' rest (frameIdx + 1) nextPos frameIdx
    else
      findVictim pagePositions i cursors' rest (frameIdx + 1) farthest victimIndex

/-- One iteration of the `for i, page := range pageReferences` loop of
`optimalAlgorithmOptimized`.  `none` embeds the Go panic
`memoryFrames[victimIndex]` with `victimIndex = -1` (possible only
when the frames are empty on a full-memory miss, i.e. `numFrames ≤ 0`). -/
def optimalStep (pagePositions : List (PageID × List Nat))
    (numFrames : Int) (didactic : Bool) (i : Nat) (st : OptState)
    (page : PageID) : Option (OptState × List DidacticEvent) :=
  let accessEv := if didactic then [DidacticEvent.access (i + 1) page] else []
  let memEv := fun (frames : List PageID) =>
    if didactic then
      [DidacticEvent.memState (frames.mergeSort (fun a b => a ≤ b))]
    else []
  if st.frames.contains page then
    some (st, accessEv
      ++ (if didactic then [DidacticEvent.hit] else [])
      ++ memEv st.frames)
  else
    let faults := st.pageFaults + 1
    let loads := bumpLoad st.loadCounts page
    if (st.frames.length : Int) < numFrames then
      let frames' := st.frames ++ [page]
      some (⟨frames', st.nextUseCursor, faults, loads⟩, accessEv
        ++ (if didactic then [DidacticEvent.fault "" page] else [])
        ++ memEv frames')
    else
      let sel := findVictim pagePositions i st.nextUseCursor st.frames 0 (-1) (-1)
      match sel.1.toNat' with
      | none => none  -- victimIndex = -1: Go panics (index out of range)
      | some v =>
        match st.frames[v]? with
        | none => none  -- out of range: Go panics
        | some evictedPage =>
          let frames' := st.frames.set v page
          some (⟨frames', sel.2, faults, loads⟩, accessEv
            ++ (if didactic then [DidacticEvent.fault evictedPage page] else [])
            ++ memEv frames')

/-- The loop of `optimalAlgorithmOptimized` from an arbitrary state. -/
def optimalRun (pagePositions : List (PageID × List Nat))
    (numFrames : Int) (didactic : Bool) :
    Nat → OptState → List PageID →
    Option (OptState × List DidacticEvent)
  | _, st, [] => some (st, [])
  | i, st, page :: rest =>
    match optimalStep pagePositions numFrames didactic i st page with
    | none => none
    | some (st', evs) =>
      match optimalRun pagePositions numFrames didactic (i + 1) st' rest with
      | none => none
      | some (stFinal, evsRest) => some (stFinal, evs ++ evsRest)

/-- `optimalAlgorithmOptimized(pageReferences, numFrames,
pagePositions, didacticMode)`. -/
def optimalAlgorithmOptimized (pageReferences : List PageID)
    (numFrames : Int) (pagePositions : List (PageID × List Nat))
    (didacticMode : Bool) : Option (SimulationResult × List DidacticEvent) :=
  (optimalRun pagePositions numFrames didacticMode 0 optInit pageReferences).map
    (fun (st, evs) => (⟨st.pageFaults, st.loadCounts⟩, evs))

/-! ## Basic lemmas about the `loadCounts` map -/

theorem sumLoads_nil : sumLoads [] = 0 := rfl

theorem sumLoads_bumpLoad (l : List (PageID × Nat)) (p : PageID) :
    sumLoads (bumpLoad l p) = sumLoads l + 1 := by
  induction l with
  | nil => rfl
  | cons e rest ih =>
    obtain ⟨q, c⟩ := e
    by_cases h : q = p
    · simp [bumpLoad, h, sumLoads, List.map_cons]
      omega
    · simp [bumpLoad, h, sumLoads, List.map_cons] at ih ⊢
      omega

theorem mem_loadKeys_bumpLoad (l : List (PageID × Nat)) (p q : PageID) :
    q ∈ loadKeys (bumpLoad l p) ↔ q ∈ loadKeys l ∨ q = p := by
  induction l with
  | nil => simp [bumpLoad, loadKeys, eq_comm]
  | cons e rest ih =>
    obtain ⟨r, c⟩ := e
    by_cases h : r = p
    · subst h
      simp [bumpLoad, loadKeys]
      tauto
    · simp [bumpLoad, h, loadKeys] at ih ⊢
      tauto

theorem loadKeys_bumpLoad_of_mem (l : List (PageID × Nat)) (p : PageID)
    (h : p ∈ loadKeys l) : loadKeys (bumpLoad l p) = loadKeys l := by
  induction l with
  | nil => simp [loadKeys] at h
  | cons e rest ih =>
    obtain ⟨r, c⟩ := e
    by_cases hr : r = p
    · simp [bumpLoad, hr, loadKeys]
    · have h' : p ∈ loadKeys rest := by
        simp only [loadKeys, List.map_cons, List.mem_cons] at h
        rcases h with h | h
        · exact absurd h.symm hr
        · exact h
      simp only [bumpLoad, hr, if_false, loadKeys, List.map_cons]
      rw [show List.map Prod.fst (bumpLoad rest p) = loadKeys (bumpLoad rest p) from rfl,
        ih h']
      rfl

theorem loadKeys_bumpLoad_of_not_mem (l : List (PageID × Nat)) (p : PageID)
    (h : p ∉ loadKeys l) : loadKeys (bumpLoad l p) = loadKeys l ++ [p] := by
  induction l with
  | nil => simp [bumpLoad, loadKeys]
  | cons e rest ih =>
    obtain ⟨r, c⟩ := e
    simp only [loadKeys, List.map_cons, List.mem_cons] at h
    push_neg at h
    have hr : ¬ r = p := fun hrp => h.1 hrp.symm
    simp only [bumpLoad, hr, if_false, loadKeys, List.map_cons]
    rw [show List.map Prod.fst (bumpLoad rest p) = loadKeys (bumpLoad rest p) from rfl,
      ih h.2]
    rfl

theorem nodup_loadKeys_bumpLoad (l : List (PageID × Nat)) (p : PageID)
    (h : (loadKeys l).Nodup) : (loadKeys (bumpLoad l p)).Nodup := by
  by_cases hp : p ∈ loadKeys l
  · rwa [loadKeys_bumpLoad_of_mem l p hp]
  · rw [loadKeys_bumpLoad_of_not_mem l p hp]
    simp [List.nodup_append, h, hp]

theorem vals_pos_bumpLoad (l : List (PageID × Nat)) (p : PageID)
    (h : ∀ e ∈ l, 1 ≤ e.2) : ∀ e ∈ bumpLoad l p, 1 ≤ e.2 := by
  induction l with
  | nil =>
    intro e he
    simp [bumpLoad] at he
    simp [he]
  | cons f rest ih =>
    obtain ⟨r, c⟩ := f
    intro e he
    by_cases hr : r = p
    · simp [bumpLoad, hr] at he
      rcases he with he | he
      · subst he; simp
      · exact h e (by simp [he])
    · simp [bumpLoad, hr] at he
      rcases he with he | he
      · subst he
        exact h (r, c) (by simp)
      · exact ih (fun e' he' => h e' (by simp [he'])) e he

theorem length_le_sumLoads (l : List (PageID × Nat))
    (h : ∀ e ∈ l, 1 ≤ e.2) : l.length ≤ sumLoads l := by
  induction l with
  | nil => simp [sumLoads]
  | cons e rest ih =>
    have h1 : 1 ≤ e.2 := h e (by simp)
    have h2 := ih (fun e' he' => h e' (by simp [he']))
    simp [sumLoads, List.map_cons] at h2 ⊢
    omega

theorem loadKeys_length (l : List (PageID × Nat)) :
    (loadKeys l).length = l.length := by
  simp [loadKeys]

/-! ## The FIFO run invariant -/

/-- Invariant of the FIFO simulator state after processing the
reference list `seen` with `numFrames = nf ≥ 1`. -/
structure FifoInv (nf : Int) (seen : List PageID) (st : FifoState) : Prop where
  faults_eq : st.pageFaults = sumLoads st.loadCounts
  vals_pos : ∀ e ∈ st.loadCounts, 1 ≤ e.2
  keys_nodup : (loadKeys st.loadCounts).Nodup
  keys_seen : ∀ p, p ∈ loadKeys st.loadCounts ↔ p ∈ seen
  frames_nodup : st.frames.Nodup
  frames_keys : ∀ p ∈ st.frames, p ∈ loadKeys st.loadCounts
  len_eq : (st.frames.length : Int) = min (st.pageFaults : Int) nf

theorem fifoInv_init (nf : Int) (hn : 1 ≤ nf) : FifoInv nf [] fifoInit := by
  constructor <;> simp [fifoInit, sumLoads, loadKeys]
  omega

theorem fifoStep_inv (nf : Int) (hn : 1 ≤ nf) (d : Bool) (i : Nat)
    (st : FifoState) (page : PageID) (seen : List PageID)
    (hinv : FifoInv nf seen st) :
    ∃ st' evs, fifoStep nf d i st page = some (st', evs) ∧
      FifoInv nf (seen ++ [page]) st' ∧
      (∀ p ∈ loadKeys st.loadCounts, p ∈ loadKeys st'.loadCounts) := by
  obtain ⟨fr, fc, lc⟩ := st
  obtain ⟨h1, h2, h3, h4, h5, h6, h7⟩ := hinv
  dsimp only at h1 h2 h3 h4 h5 h6 h7 ⊢
  by_cases hmem : page ∈ fr
  · -- hit
    refine ⟨⟨fr, fc, lc⟩,
      (if d then [DidacticEvent.access (i + 1) page] else [])
        ++ (if d then [DidacticEvent.hit] else [])
        ++ (if d then [DidacticEvent.memState fr] else []), ?_, ?_, ?_⟩
    · simp [fifoStep, List.elem_eq_mem, hmem]
    · refine ⟨h1, h2, h3, ?_, h5, h6, h7⟩
      intro p
      dsimp only
      rw [h4 p]
      simp only [List.mem_append, List.mem_singleton]
      constructor
      · exact fun hp => Or.inl hp
      · rintro (hp | hp)
        · exact hp
        · subst hp
          exact (h4 p).mp (h6 p hmem)
    · intro p hp; exact hp
  · -- miss
    by_cases hfull : ((fr.length : Int) = nf)
    · -- memory full: evict the front
      cases fr with
      | nil =>
        exfalso
        simp at hfull
        omega
      | cons e rest =>
        have hfull2 : (rest.length : Int) + 1 = nf := by
          simp only [List.length_cons] at hfull
          push_cast at hfull
          exact hfull
        refine ⟨⟨rest ++ [page], fc + 1, bumpLoad lc page⟩,
          (if d then [DidacticEvent.access (i + 1) page] else [])
            ++ (if d then [DidacticEvent.fault e page] else [])
            ++ (if d then [DidacticEvent.memState (rest ++ [page])] else []),
          ?_, ?_, ?_⟩
        · simp [fifoStep, List.elem_eq_mem, hmem, hfull2]
        · refine ⟨?_, ?_, ?_, ?_, ?_, ?_, ?_⟩ <;> dsimp only
          · simp [sumLoads_bumpLoad, h1]
          · exact vals_pos_bumpLoad lc page h2
          · exact nodup_loadKeys_bumpLoad lc page h3
          · intro p
            rw [mem_loadKeys_bumpLoad, h4 p]
            simp only [List.mem_append, List.mem_singleton]
          · have h5' : rest.Nodup := (List.nodup_cons.mp h5).2
            have hpg : page ∉ rest := fun hc => hmem (List.mem_cons_of_mem _ hc)
            simp [List.nodup_append, h5', hpg]
          · intro p hp
            rcases List.mem_append.mp hp with hp | hp
            · exact (mem_loadKeys_bumpLoad lc page p).mpr
                (Or.inl (h6 p (List.mem_cons_of_mem _ hp)))
            · have hpp : p = page := by simpa using hp
              rw [hpp]
              exact (mem_loadKeys_bumpLoad lc page page).mpr (Or.inr rfl)
          · simp only [List.length_cons] at h7
            simp only [List.length_append, List.length_singleton]
            omega
        · intro p hp
          exact (mem_loadKeys_bumpLoad lc page p).mpr (Or.inl hp)
    · -- memory not full: append
      refine ⟨⟨fr ++ [page], fc + 1, bumpLoad lc page⟩,
        (if d then [DidacticEvent.access (i + 1) page] else [])
          ++ (if d then [DidacticEvent.fault "" page] else [])
          ++ (if d then [DidacticEvent.memState (fr ++ [page])] else []),
        ?_, ?_, ?_⟩
      · simp [fifoStep, List.elem_eq_mem, hmem, hfull]
      · refine ⟨?_, ?_, ?_, ?_, ?_, ?_, ?_⟩ <;> dsimp only
        · simp [sumLoads_bumpLoad, h1]
        · exact vals_pos_bumpLoad lc page h2
        · exact nodup_loadKeys_bumpLoad lc page h3
        · intro p
          rw [mem_loadKeys_bumpLoad, h4 p]
          simp only [List.mem_append, List.mem_singleton]
        · simp [List.nodup_append, h5, hmem]
        · intro p hp
          rcases List.mem_append.mp hp with hp | hp
          · exact (mem_loadKeys_bumpLoad lc page p).mpr (Or.inl (h6 p hp))
          · have hpp : p = page := by simpa using hp
            rw [hpp]
            exact (mem_loadKeys_bumpLoad lc page page).mpr (Or.inr rfl)
        · simp only [List.length_append, List.length_singleton]
          omega
      · intro p hp
        exact (mem_loadKeys_bumpLoad lc page p).mpr (Or.inl hp)
theorem fifoRun_inv (nf : Int) (hn : 1 ≤ nf) (d : Bool) :
    ∀ (l : List PageID) (i : Nat) (st : FifoState) (seen : List PageID),
      FifoInv nf seen st →
      ∃ st' evs, fifoRun nf d i st l = some (st', evs) ∧
        FifoInv nf (seen ++ l) st' ∧
        (∀ p ∈ loadKeys st.loadCounts, p ∈ loadKeys st'.loadCounts)
  | [], i, st, seen, hinv => by
    refine ⟨st, [], rfl, by simpa using hinv, fun p hp => hp⟩
  | page :: rest, i, st, seen, hinv => by
    obtain ⟨st1, evs1, hstep, hinv1, hmono1⟩ :=
      fifoStep_inv nf hn d i st page seen hinv
    obtain ⟨st', evs', hrun, hinv', hmono'⟩ :=
      fifoRun_inv nf hn d rest (i + 1) st1 (seen ++ [page]) hinv1
    refine ⟨st', evs1 ++ evs', ?_, ?_, ?_⟩
    · simp only [fifoRun, hstep, hrun]
    · simpa using hinv'
    · intro p hp
      exact hmono' p (hmono1 p hp)

/-! ## The optimal-simulator run invariant -/

theorem nodup_set_of_not_mem :
    ∀ (l : List PageID) (n : Nat) (p : PageID),
      l.Nodup → p ∉ l → (l.set n p).Nodup
  | [], _, _, _, _ => by simp
  | a :: l, 0, p, h, hp => by
    simp only [List.set]
    rw [List.nodup_cons] at h ⊢
    exact ⟨fun hc => hp (List.mem_cons_of_mem _ hc), h.2⟩
  | a :: l, n + 1, p, h, hp => by
    simp only [List.set]
    rw [List.nodup_cons] at h ⊢
    refine ⟨?_, nodup_set_of_not_mem l n p h.2
      (fun hc => hp (List.mem_cons_of_mem _ hc))⟩
    intro hc
    rcases List.mem_or_eq_of_mem_set hc with hc | hc
    · exact h.1 hc
    · subst hc
      exact hp (List.mem_cons_self _ _)

theorem toNat'_eq_some_of_nonneg (a : Int) (h : 0 ≤ a) :
    a.toNat' = some a.toNat := by
  lift a to Nat using h
  rfl

/-- The `victimIndex` returned by the eviction scan is either the
initial accumulator or an index in `[frameIdx, frameIdx + frames.length)`. -/
theorem findVictim_fst_bounds (pp : List (PageID × List Nat)) (i : Nat) :
    ∀ (frames : List PageID) (cursors : PageID → Nat) (k : Nat) (far v : Int),
      (findVictim pp i cursors frames k far v).1 = v ∨
      ((k : Int) ≤ (findVictim pp i cursors frames k far v).1 ∧
        (findVictim pp i cursors frames k far v).1 < (k : Int) + frames.length)
  | [], cursors, k, far, v => by simp [findVictim]
  | framePage :: rest, cursors, k, far, v => by
    cases hg : (posGet pp framePage)[advanceCursor
        (posGet pp framePage) i (cursors framePage)]? with
    | none =>
      refine Or.inr ?_
      simp only [findVictim, hg, if_true]
      refine ⟨le_refl _, ?_⟩
      simp only [List.length_cons]
      push_cast
      omega
    | some x =>
      simp only [findVictim, hg]
      rw [if_neg (by omega : ¬((x : Int) = -1))]
      by_cases hf : far < (x : Int)
      · rw [if_pos hf]
        rcases findVictim_fst_bounds pp i rest
          (fun q => if q = framePage then
            advanceCursor (posGet pp framePage) i (cursors framePage)
          else cursors q) (k + 1) (x : Int) (k : Int) with h | h
        · rw [h]
          right
          simp only [List.length_cons]
          push_cast
          omega
        · right
          simp only [List.length_cons]
          push_cast at h ⊢
          omega
      · rw [if_neg hf]
        rcases findVictim_fst_bounds pp i rest
          (fun q => if q = framePage then
            advanceCursor (posGet pp framePage) i (cursors framePage)
          else cursors q) (k + 1) far v with h | h
        · rw [h]
          left
          rfl
        · right
          simp only [List.length_cons]
          push_cast at h ⊢
          omega

/-- On a nonempty frame list the eviction scan returns a valid index. -/
theorem findVictim_fst_range (pp : List (PageID × List Nat)) (i : Nat)
    (frames : List PageID) (cursors : PageID → Nat) (hne : frames ≠ []) :
    0 ≤ (findVictim pp i cursors frames 0 (-1) (-1)).1 ∧
    (findVictim pp i cursors frames 0 (-1) (-1)).1 < (frames.length : Int) := by
  cases frames with
  | nil => exact absurd rfl hne
  | cons framePage rest =>
    cases hg : (posGet pp framePage)[advanceCursor
        (posGet pp framePage) i (cursors framePage)]? with
    | none =>
      simp only [findVictim, hg, if_true]
      simp only [List.length_cons]
      push_cast
      exact ⟨trivial, by omega⟩
    | some x =>
      simp only [findVictim, hg]
      rw [if_neg (by omega : ¬((x : Int) = -1)),
        if_pos (by omega : (-1 : Int) < (x : Int))]
      simp only [Nat.zero_add, Nat.cast_zero, List.length_cons]
      rcases findVictim_fst_bounds pp i rest
        (fun q => if q = framePage then
          advanceCursor (posGet pp framePage) i (cursors framePage)
        else cursors q) 1 (x : Int) 0 with h | h
      · rw [h]
        push_cast
        exact ⟨trivial, by omega⟩
      · push_cast at h ⊢
        omega

/-- Invariant of the optimal-simulator state after processing the
reference list `seen` with `numFrames = nf ≥ 1` (any `pagePositions`). -/
structure OptInv (nf : Int) (seen : List PageID) (st : OptState) : Prop where
  faults_eq : st.pageFaults = sumLoads st.loadCounts
  vals_pos : ∀ e ∈ st.loadCounts, 1 ≤ e.2
  keys_nodup : (loadKeys st.loadCounts).Nodup
  keys_seen : ∀ p, p ∈ loadKeys st.loadCounts ↔ p ∈ seen
  frames_nodup : st.frames.Nodup
  frames_keys : ∀ p ∈ st.frames, p ∈ loadKeys st.loadCounts
  len_eq : (st.frames.length : Int) = min (st.pageFaults : Int) nf

theorem optInv_init (nf : Int) (hn : 1 ≤ nf) : OptInv nf [] optInit := by
  constructor <;> simp [optInit, sumLoads, loadKeys]
  omega

theorem optimalStep_inv (pp : List (PageID × List Nat)) (nf : Int)
    (hn : 1 ≤ nf) (d : Bool) (i : Nat) (st : OptState) (page : PageID)
    (seen : List PageID) (hinv : OptInv nf seen st) :
    ∃ st' evs, optimalStep pp nf d i st page = some (st', evs) ∧
      OptInv nf (seen ++ [page]) st' ∧
      (∀ p ∈ loadKeys st.loadCounts, p ∈ loadKeys st'.loadCounts) := by
  obtain ⟨fr, cur, fc, lc⟩ := st
  obtain ⟨h1, h2, h3, h4, h5, h6, h7⟩ := hinv
  dsimp only at h1 h2 h3 h4 h5 h6 h7 ⊢
  by_cases hmem : page ∈ fr
  · -- hit
    refine ⟨⟨fr, cur, fc, lc⟩,
      (if d then [DidacticEvent.access (i + 1) page] else [])
        ++ (if d then [DidacticEvent.hit] else [])
        ++ (if d then
          [DidacticEvent.memState (fr.mergeSort (fun a b => a ≤ b))] else []),
      ?_, ?_, ?_⟩
    · simp [optimalStep, List.elem_eq_mem, hmem]
    · refine ⟨h1, h2, h3, ?_, h5, h6, h7⟩
      intro p
      dsimp only
      rw [h4 p]
      simp only [List.mem_append, List.mem_singleton]
      constructor
      · exact fun hp => Or.inl hp
      · rintro (hp | hp)
        · exact hp
        · rw [hp]
          exact (h4 page).mp (h6 page hmem)
    · intro p hp; exact hp
  · -- miss
    by_cases hlt : ((fr.length : Int) < nf)
    · -- memory not full: append
      refine ⟨⟨fr ++ [page], cur, fc + 1, bumpLoad lc page⟩,
        (if d then [DidacticEvent.access (i + 1) page] else [])
          ++ (if d then [DidacticEvent.fault "" page] else [])
          ++ (if d then
            [DidacticEvent.memState
              ((fr ++ [page]).mergeSort (fun a b => a ≤ b))] else []),
        ?_, ?_, ?_⟩
      · simp [optimalStep, List.elem_eq_mem, hmem, hlt]
      · refine ⟨?_, ?_, ?_, ?_, ?_, ?_, ?_⟩ <;> dsimp only
        · simp [sumLoads_bumpLoad, h1]
        · exact vals_pos_bumpLoad lc page h2
        · exact nodup_loadKeys_bumpLoad lc page h3
        · intro p
          rw [mem_loadKeys_bumpLoad, h4 p]
          simp only [List.mem_append, List.mem_singleton]
        · simp [List.nodup_append, h5, hmem]
        · intro p hp
          rcases List.mem_append.mp hp with hp | hp
          · exact (mem_loadKeys_bumpLoad lc page p).mpr (Or.inl (h6 p hp))
          · have hpp : p = page := by simpa using hp
            rw [hpp]
            exact (mem_loadKeys_bumpLoad lc page page).mpr (Or.inr rfl)
        · simp only [List.length_append, List.length_singleton]
          omega
      · intro p hp
        exact (mem_loadKeys_bumpLoad lc page p).mpr (Or.inl hp)
    · -- memory full: run the eviction scan
      have hne : fr ≠ [] := by
        intro h0
        rw [h0] at hlt
        simp at hlt
        omega
      obtain ⟨hge0, hltlen⟩ := findVictim_fst_range pp i fr cur hne
      have hvlt : (findVictim pp i cur fr 0 (-1) (-1)).1.toNat < fr.length := by
        omega
      have hv1 : (findVictim pp i cur fr 0 (-1) (-1)).1.toNat' =
          some (findVictim pp i cur fr 0 (-1) (-1)).1.toNat :=
        toNat'_eq_some_of_nonneg _ hge0
      have hv2 : fr[(findVictim pp i cur fr 0 (-1) (-1)).1.toNat]? =
          some (fr.get ⟨(findVictim pp i cur fr 0 (-1) (-1)).1.toNat, hvlt⟩) :=
        List.getElem?_eq_getElem hvlt
      refine ⟨⟨fr.set (findVictim pp i cur fr 0 (-1) (-1)).1.toNat page,
          (findVictim pp i cur fr 0 (-1) (-1)).2, fc + 1, bumpLoad lc page⟩,
        (if d then [DidacticEvent.access (i + 1) page] else [])
          ++ (if d then
            [DidacticEvent.fault
              (fr.get ⟨(findVictim pp i cur fr 0 (-1) (-1)).1.toNat, hvlt⟩)
              page] else [])
          ++ (if d then
            [DidacticEvent.memState
              ((fr.set (findVictim pp i cur fr 0 (-1) (-1)).1.toNat
                page).mergeSort (fun a b => a ≤ b))] else []),
        ?_, ?_, ?_⟩
      · have hc : ¬(fr.contains page = true) := by
          simp [List.elem_eq_mem, hmem]
        simp only [optimalStep]
        rw [if_neg hc, if_neg hlt, hv1]
        dsimp only
        rw [hv2]
      · refine ⟨?_, ?_, ?_, ?_, ?_, ?_, ?_⟩ <;> dsimp only
        · simp [sumLoads_bumpLoad, h1]
        · exact vals_pos_bumpLoad lc page h2
        · exact nodup_loadKeys_bumpLoad lc page h3
        · intro p
          rw [mem_loadKeys_bumpLoad, h4 p]
          simp only [List.mem_append, List.mem_singleton]
        · exact nodup_set_of_not_mem fr _ page h5 hmem
        · intro p hp
          rcases List.mem_or_eq_of_mem_set hp with hp | hp
          · exact (mem_loadKeys_bumpLoad lc page p).mpr (Or.inl (h6 p hp))
          · rw [hp]
            exact (mem_loadKeys_bumpLoad lc page page).mpr (Or.inr rfl)
        · simp only [List.length_set]
          omega
      · intro p hp
        exact (mem_loadKeys_bumpLoad lc page p).mpr (Or.inl hp)

theorem optimalRun_inv (pp : List (PageID × List Nat)) (nf : Int)
    (hn : 1 ≤ nf) (d : Bool) :
    ∀ (l : List PageID) (i : Nat) (st : OptState) (seen : List PageID),
      OptInv nf seen st →
      ∃ st' evs, optimalRun pp nf d i st l = some (st', evs) ∧
        OptInv nf (seen ++ l) st' ∧
        (∀ p ∈ loadKeys st.loadCounts, p ∈ loadKeys st'.loadCounts)
  | [], i, st, seen, hinv => by
    refine ⟨st, [], rfl, by simpa using hinv, fun p hp => hp⟩
  | page :: rest, i, st, seen, hinv => by
    obtain ⟨st1, evs1, hstep, hinv1, hmono1⟩ :=
      optimalStep_inv pp nf hn d i st page seen hinv
    obtain ⟨st', evs', hrun, hinv', hmono'⟩ :=
      optimalRun_inv pp nf hn d rest (i + 1) st1 (seen ++ [page]) hinv1
    refine ⟨st', evs1 ++ evs', ?_, ?_, ?_⟩
    · simp only [optimalRun, hstep, hrun]
    · simpa using hinv'
    · intro p hp
      exact hmono' p (hmono1 p hp)

/-! ## The didactic flag never changes the simulation state -/

theorem fifoStep_fst_eq (nf : Int) (d d' : Bool) (i : Nat)
    (st : FifoState) (page : PageID) :
    (fifoStep nf d i st page).map Prod.fst =
    (fifoStep nf d' i st page).map Prod.fst := by
  obtain ⟨fr, fc, lc⟩ := st
  by_cases hmem : page ∈ fr
  · simp [fifoStep, List.elem_eq_mem, hmem]
  · by_cases hfull : ((fr.length : Int) = nf)
    · cases fr with
      | nil =>
        simp only [List.length_nil, Nat.cast_zero] at hfull
        simp [fifoStep, List.elem_eq_mem, hmem, hfull.symm]
      | cons e rest =>
        have hfull2 : ((rest.length : Int) + 1 = nf) := by
          simp only [List.length_cons] at hfull
          push_cast at hfull
          exact hfull
        simp [fifoStep, List.elem_eq_mem, hmem, hfull2]
    · simp [fifoStep, List.elem_eq_mem, hmem, hfull]

theorem optimalStep_fst_eq (pp : List (PageID × List Nat)) (nf : Int)
    (d d' : Bool) (i : Nat) (st : OptState) (page : PageID) :
    (optimalStep pp nf d i st page).map Prod.fst =
    (optimalStep pp nf d' i st page).map Prod.fst := by
  obtain ⟨fr, cur, fc, lc⟩ := st
  by_cases hmem : page ∈ fr
  · simp [optimalStep, List.elem_eq_mem, hmem]
  · by_cases hlt : ((fr.length : Int) < nf)
    · simp [optimalStep, List.elem_eq_mem, hmem, hlt]
    · cases hv : (findVictim pp i cur fr 0 (-1) (-1)).1.toNat' with
      | none => simp [optimalStep, List.elem_eq_mem, hmem, hlt, hv]
      | some v =>
        cases hg : fr[v]? with
        | none => simp [optimalStep, List.elem_eq_mem, hmem, hlt, hv, hg]
        | some e => simp [optimalStep, List.elem_eq_mem, hmem, hlt, hv, hg]

theorem fifoRun_fst_eq (nf : Int) (d d' : Bool) :
    ∀ (l : List PageID) (i : Nat) (st : FifoState),
      (fifoRun nf d i st l).map Prod.fst =
      (fifoRun nf d' i st l).map Prod.fst
  | [], _, _ => rfl
  | page :: rest, i, st => by
    have hstep := fifoStep_fst_eq nf d d' i st page
    cases hA : fifoStep nf d i st page with
    | none =>
      cases hB : fifoStep nf d' i st page with
      | none => simp [fifoRun, hA, hB]
      | some sb =>
        rw [hA, hB] at hstep
        simp at hstep
    | some sa =>
      cases hB : fifoStep nf d' i st page with
      | none =>
        rw [hA, hB] at hstep
        simp at hstep
      | some sb =>
        obtain ⟨sa1, ea⟩ := sa
        obtain ⟨sb1, eb⟩ := sb
        rw [hA, hB] at hstep
        replace hstep : sa1 = sb1 := by simpa using hstep
        subst hstep
        have ih := fifoRun_fst_eq nf d d' rest (i + 1) sa1
        simp only [fifoRun, hA, hB]
        cases hRA : fifoRun nf d (i + 1) sa1 rest with
        | none =>
          cases hRB : fifoRun nf d' (i + 1) sa1 rest with
          | none => simp
          | some rb =>
            rw [hRA, hRB] at ih
            simp at ih
        | some ra =>
          cases hRB : fifoRun nf d' (i + 1) sa1 rest with
          | none =>
            rw [hRA, hRB] at ih
            simp at ih
          | some rb =>
            obtain ⟨ra1, rea⟩ := ra
            obtain ⟨rb1, reb⟩ := rb
            rw [hRA, hRB] at ih
            replace ih : ra1 = rb1 := by simpa using ih
            subst ih
            simp

theorem optimalRun_fst_eq (pp : List (PageID × List Nat)) (nf : Int)
    (d d' : Bool) :
    ∀ (l : List PageID) (i : Nat) (st : OptState),
      (optimalRun pp nf d i st l).map Prod.fst =
      (optimalRun pp nf d' i st l).map Prod.fst
  | [], _, _ => rfl
  | page :: rest, i, st => by
    have hstep := optimalStep_fst_eq pp nf d d' i st page
    cases hA : optimalStep pp nf d i st page with
    | none =>
      cases hB : optimalStep pp nf d' i st page with
      | none => simp [optimalRun, hA, hB]
      | some sb =>
        rw [hA, hB] at hstep
        simp at hstep
    | some sa =>
      cases hB : optimalStep pp nf d' i st page with
      | none =>
        rw [hA, hB] at hstep
        simp at hstep
      | some sb =>
        obtain ⟨sa1, ea⟩ := sa
        obtain ⟨sb1, eb⟩ := sb
        rw [hA, hB] at hstep
        replace hstep : sa1 = sb1 := by simpa using hstep
        subst hstep
        have ih := optimalRun_fst_eq pp nf d d' rest (i + 1) sa1
        simp only [optimalRun, hA, hB]
        cases hRA : optimalRun pp nf d (i + 1) sa1 rest with
        | none =>
          cases hRB : optimalRun pp nf d' (i + 1) sa1 rest with
          | none => simp
          | some rb =>
            rw [hRA, hRB] at ih
            simp at ih
        | some ra =>
          cases hRB : optimalRun pp nf d' (i + 1) sa1 rest with
          | none =>
            rw [hRA, hRB] at ih
            simp at ih
          | some rb =>
            obtain ⟨ra1, rea⟩ := ra
            obtain ⟨rb1, reb⟩ := rb
            rw [hRA, hRB] at ih
            replace ih : ra1 = rb1 := by simpa using ih
            subst ih
            simp

/-! ## Decomposing a run along an append -/

theorem fifoRun_append (nf : Int) (d : Bool) :
    ∀ (l1 l2 : List PageID) (i : Nat) (st : FifoState),
      fifoRun nf d i st (l1 ++ l2) =
        match fifoRun nf d i st l1 with
        | none => none
        | some (st1, evs1) =>
          match fifoRun nf d (i + l1.length) st1 l2 with
          | none => none
          | some (st2, evs2) => some (st2, evs1 ++ evs2)
  | [], l2, i, st => by
    simp only [List.nil_append, fifoRun, List.length_nil, Nat.add_zero]
    cases h : fifoRun nf d i st l2 with
    | none => rfl
    | some r =>
      obtain ⟨r1, re⟩ := r
      simp
  | page :: rest, l2, i, st => by
    cases hA : fifoStep nf d i st page with
    | none => simp [List.cons_append, fifoRun, hA]
    | some sa =>
      obtain ⟨sa1, ea⟩ := sa
      simp only [List.cons_append, fifoRun, hA, List.append_eq]
      rw [fifoRun_append nf d rest l2 (i + 1) sa1]
      simp only [List.length_cons]
      have hlen : i + 1 + rest.length = i + (rest.length + 1) := by omega
      rw [hlen]
      cases hR : fifoRun nf d (i + 1) sa1 rest with
      | none => rfl
      | some r =>
        obtain ⟨r1, re⟩ := r
        cases hR2 : fifoRun nf d (i + (rest.length + 1)) r1 l2 with
        | none => simp [hR2]
        | some r2 =>
          obtain ⟨r21, re2⟩ := r2
          simp [hR2]

theorem optimalRun_append (pp : List (PageID × List Nat)) (nf : Int)
    (d : Bool) :
    ∀ (l1 l2 : List PageID) (i : Nat) (st : OptState),
      optimalRun pp nf d i st (l1 ++ l2) =
        match optimalRun pp nf d i st l1 with
        | none => none
        | some (st1, evs1) =>
          match optimalRun pp nf d (i + l1.length) st1 l2 with
          | none => none
          | some (st2, evs2) => some (st2, evs1 ++ evs2)
  | [], l2, i, st => by
    simp only [List.nil_append, optimalRun, List.length_nil, Nat.add_zero]
    cases h : optimalRun pp nf d i st l2 with
    | none => rfl
    | some r =>
      obtain ⟨r1, re⟩ := r
      simp
  | page :: rest, l2, i, st => by
    cases hA : optimalStep pp nf d i st page with
    | none => simp [List.cons_append, optimalRun, hA]
    | some sa =>
      obtain ⟨sa1, ea⟩ := sa
      simp only [List.cons_append, optimalRun, hA, List.append_eq]
      rw [optimalRun_append pp nf d rest l2 (i + 1) sa1]
      simp only [List.length_cons]
      have hlen : i + 1 + rest.length = i + (rest.length + 1) := by omega
      rw [hlen]
      cases hR : optimalRun pp nf d (i + 1) sa1 rest with
      | none => rfl
      | some r =>
        obtain ⟨r1, re⟩ := r
        cases hR2 : optimalRun pp nf d (i + (rest.length + 1)) r1 l2 with
        | none => simp [hR2]
        | some r2 =>
          obtain ⟨r21, re2⟩ := r2
          simp [hR2]

/-! ## Behaviour at invalid capacities -/

theorem fifoStep_some_of_neg (nf : Int) (hneg : nf < 0) (d : Bool) (i : Nat)
    (st : FifoState) (page : PageID) :
    ∃ st' evs, fifoStep nf d i st page = some (st', evs) := by
  obtain ⟨fr, fc, lc⟩ := st
  by_cases hmem : page ∈ fr
  · exact ⟨⟨fr, fc, lc⟩,
      (if d then [DidacticEvent.access (i + 1) page] else [])
        ++ (if d then [DidacticEvent.hit] else [])
        ++ (if d then [DidacticEvent.memState fr] else []),
      by simp [fifoStep, List.elem_eq_mem, hmem]⟩
  · have hne : ¬((fr.length : Int) = nf) := by omega
    exact ⟨⟨fr ++ [page], fc + 1, bumpLoad lc page⟩,
      (if d then [DidacticEvent.access (i + 1) page] else [])
        ++ (if d then [DidacticEvent.fault "" page] else [])
        ++ (if d then [DidacticEvent.memState (fr ++ [page])] else []),
      by simp [fifoStep, List.elem_eq_mem, hmem, hne]⟩

theorem fifoRun_some_of_neg (nf : Int) (hneg : nf < 0) (d : Bool) :
    ∀ (l : List PageID) (i : Nat) (st : FifoState),
      ∃ st' evs, fifoRun nf d i st l = some (st', evs)
  | [], i, st => ⟨st, [], rfl⟩
  | page :: rest, i, st => by
    obtain ⟨st1, evs1, hstep⟩ := fifoStep_some_of_neg nf hneg d i st page
    obtain ⟨st', evs', hrun⟩ := fifoRun_some_of_neg nf hneg d rest (i + 1) st1
    exact ⟨st', evs1 ++ evs', by simp only [fifoRun, hstep, hrun]⟩

/-- With `numFrames = 0` and a nonempty trace, `fifoAlgorithm` panics
on the very first reference (nil `Front()` of the empty queue). -/
theorem fifoAlgorithm_zero_frames_none (d : Bool) (page : PageID)
    (rest : List PageID) :
    fifoAlgorithm (page :: rest) 0 d = none := by
  simp [fifoAlgorithm, fifoRun, fifoStep, fifoInit]

/-- With `numFrames ≤ 0` and a nonempty trace,
`optimalAlgorithmOptimized` panics on the very first reference
(`memoryFrames[-1]`: index out of range). -/
theorem optimalAlgorithm_nonpos_frames_none
    (pp : List (PageID × List Nat)) (nf : Int) (hnf : nf ≤ 0) (d : Bool)
    (page : PageID) (rest : List PageID) :
    optimalAlgorithmOptimized (page :: rest) nf pp d = none := by
  have hlt : ¬((0 : Int) < nf) := by omega
  have hneg1 : ((-1 : Int)).toNat' = none := rfl
  simp [optimalAlgorithmOptimized, optimalRun, optimalStep, optInit,
    findVictim, hlt, hneg1]

/-! ## Correctness of the trace preprocessing -/

/-- Specification-side description of the occurrence indices: the
ascending list of positions `≥ i` at which `p` occurs in the remaining
trace, positions counted from `i`. -/
def occIndicesFrom (p : PageID) : Nat → List PageID → List Nat
  | _, [] => []
  | i, q :: rest =>
    if q = p then i :: occIndicesFrom p (i + 1) rest
    else occIndicesFrom p (i + 1) rest

theorem occIndicesFrom_ge (p : PageID) :
    ∀ (l : List PageID) (i j : Nat), j ∈ occIndicesFrom p i l → i ≤ j
  | [], i, j, h => by simp [occIndicesFrom] at h
  | q :: rest, i, j, h => by
    by_cases hq : q = p
    · simp only [occIndicesFrom, hq, if_true, List.mem_cons] at h
      rcases h with h | h
      · omega
      · have := occIndicesFrom_ge p rest (i + 1) j h
        omega
    · simp only [occIndicesFrom, hq, if_false] at h
      have := occIndicesFrom_ge p rest (i + 1) j h
      omega

theorem occIndicesFrom_pairwise (p : PageID) :
    ∀ (l : List PageID) (i : Nat), (occIndicesFrom p i l).Pairwise (· < ·)
  | [], i => by simp [occIndicesFrom]
  | q :: rest, i => by
    by_cases hq : q = p
    · simp only [occIndicesFrom, hq, if_true]
      refine List.pairwise_cons.mpr ⟨?_, occIndicesFrom_pairwise p rest (i + 1)⟩
      intro j hj
      have := occIndicesFrom_ge p rest (i + 1) j hj
      omega
    · simp only [occIndicesFrom, hq, if_false]
      exact occIndicesFrom_pairwise p rest (i + 1)

theorem mem_occIndicesFrom (p : PageID) :
    ∀ (l : List PageID) (i j : Nat),
      j ∈ occIndicesFrom p i l ↔ (i ≤ j ∧ l.get? (j - i) = some p)
  | [], i, j => by simp [occIndicesFrom]
  | q :: rest, i, j => by
    constructor
    · intro h
      by_cases hq : q = p
      · simp only [occIndicesFrom, hq, if_true, List.mem_cons] at h
        rcases h with h | h
        · subst h
          simp [hq]
        · obtain ⟨h1, h2⟩ := (mem_occIndicesFrom p rest (i + 1) j).mp h
          refine ⟨by omega, ?_⟩
          have : j - i = (j - (i + 1)) + 1 := by omega
          rw [this]
          simpa using h2
      · simp only [occIndicesFrom, hq, if_false] at h
        obtain ⟨h1, h2⟩ := (mem_occIndicesFrom p rest (i + 1) j).mp h
        refine ⟨by omega, ?_⟩
        have : j - i = (j - (i + 1)) + 1 := by omega
        rw [this]
        simpa using h2
    · rintro ⟨h1, h2⟩
      by_cases hj : j = i
      · subst hj
        simp only [Nat.sub_self, List.get?] at h2
        have hq : q = p := by simpa using h2
        simp [occIndicesFrom, hq]
      · have hgt : i + 1 ≤ j := by omega
        have : j - i = (j - (i + 1)) + 1 := by omega
        rw [this] at h2
        simp only [List.get?] at h2
        have hmem : j ∈ occIndicesFrom p (i + 1) rest :=
          (mem_occIndicesFrom p rest (i + 1) j).mpr ⟨hgt, h2⟩
        by_cases hq : q = p
        · simp [occIndicesFrom, hq, hmem]
        · simp [occIndicesFrom, hq, hmem]

theorem find?_posAppend_self (acc : List (PageID × List Nat))
    (q : PageID) (i : Nat) :
    (posAppend acc q i).find? (fun e => e.1 = q) =
      some (q, (match acc.find? (fun e => e.1 = q) with
        | some e => e.2
        | none => []) ++ [i]) := by
  induction acc with
  | nil => simp [posAppend, List.find?_cons]
  | cons e rest ih =>
    obtain ⟨r, l⟩ := e
    by_cases hr : r = q
    · subst hr
      simp [posAppend, List.find?_cons]
    · have hrq : (decide ((r, l).1 = q)) = false := by simp [hr]
      simp only [posAppend, hr, if_false, List.find?_cons, hrq]
      exact ih

theorem find?_posAppend_other (acc : List (PageID × List Nat))
    (q p : PageID) (i : Nat) (h : ¬(p = q)) :
    (posAppend acc q i).find? (fun e => e.1 = p) =
      acc.find? (fun e => e.1 = p) := by
  induction acc with
  | nil =>
    have hqp : (decide (q = p)) = false := by
      simp only [decide_eq_false_iff_not]
      exact fun hc => h hc.symm
    simp [posAppend, List.find?_cons, hqp]
  | cons e rest ih =>
    obtain ⟨r, l⟩ := e
    by_cases hr : r = q
    · have hrp : (decide ((r, l).1 = p)) = false := by
        simp only [decide_eq_false_iff_not]
        intro hc
        exact h (hc ▸ hr)
      simp only [posAppend]
      rw [if_pos hr]
      simp only [List.find?_cons, hrp]
    · simp only [posAppend, hr, if_false, List.find?_cons]
      cases hd : (decide ((r, l).1 = p)) with
      | true => rfl
      | false => exact ih

theorem find?_key_eq (m : List (PageID × List Nat)) (p : PageID)
    (e : PageID × List Nat) (h : m.find? (fun e => e.1 = p) = some e) :
    e.1 = p := by
  have := List.find?_some h
  simpa using this

theorem find?_buildPositionsFrom (p : PageID) :
    ∀ (l : List PageID) (i : Nat) (acc : List (PageID × List Nat)),
      (buildPositionsFrom i acc l).find? (fun e => e.1 = p) =
        match acc.find? (fun e => e.1 = p) with
        | some e => some (e.1, e.2 ++ occIndicesFrom p i l)
        | none =>
          if p ∈ l then some (p, occIndicesFrom p i l) else none
  | [], i, acc => by
    simp only [buildPositionsFrom, occIndicesFrom]
    cases h : acc.find? (fun e => e.1 = p) with
    | none => simp
    | some e => simp
  | page :: rest, i, acc => by
    simp only [buildPositionsFrom]
    rw [find?_buildPositionsFrom p rest (i + 1) (posAppend acc page i)]
    by_cases hp : p = page
    · subst hp
      rw [find?_posAppend_self acc p i]
      cases h : acc.find? (fun e => e.1 = p) with
      | none =>
        simp only [occIndicesFrom, if_pos rfl, List.mem_cons]
        simp
      | some e =>
        have he := find?_key_eq acc p e h
        simp only [occIndicesFrom, if_pos rfl]
        simp [he]
    · rw [find?_posAppend_other acc page p i hp]
      cases h : acc.find? (fun e => e.1 = p) with
      | none =>
        have hne : ¬(page = p) := fun hc => hp hc.symm
        simp only [occIndicesFrom, hne, if_false, List.mem_cons]
        by_cases hmem : p ∈ rest <;> simp [hmem, hp]
      | some e =>
        have hne : ¬(page = p) := fun hc => hp hc.symm
        simp only [occIndicesFrom, hne, if_false]

/-! ## Characterising the eviction choice of the optimal simulator -/

/-- The victim-selection recursion of `optimalAlgorithmOptimized`,
abstracted over the list of per-frame `nextPos` values. -/
def selectVictimIdx : List Int → Nat → Int → Int → Int
  | [], _, _, v => v
  | np :: rest, k, far, v =>
    if np = -1 then (k : Int)
    else if far < np then selectVictimIdx rest (k + 1) np (k : Int)
    else selectVictimIdx rest (k + 1) far v

theorem nextPosOf_shape (pp : List (PageID × List Nat))
    (cursors : PageID → Nat) (i : Nat) (q : PageID) :
    nextPosOf pp cursors i q = -1 ∨ 0 ≤ nextPosOf pp cursors i q := by
  cases hg : (posGet pp q)[advanceCursor (posGet pp q) i (cursors q)]? with
  | none => simp [nextPosOf, hg]
  | some x =>
    right
    simp [nextPosOf, hg]

/-- With distinct resident pages, the sequential cursor updates made by
the scan do not affect the `nextPos` of pages scanned later, so the
returned `victimIndex` only depends on the per-frame `nextPos` values. -/
theorem findVictim_eq_selectVictimIdx (pp : List (PageID × List Nat))
    (i : Nat) :
    ∀ (frames : List PageID) (cursors : PageID → Nat) (k : Nat)
      (far v : Int), frames.Nodup →
      (findVictim pp i cursors frames k far v).1 =
        selectVictimIdx (frames.map (nextPosOf pp cursors i)) k far v
  | [], cursors, k, far, v, _ => rfl
  | framePage :: rest, cursors, k, far, v, h => by
    obtain ⟨hnotin, hnd⟩ := List.nodup_cons.mp h
    have hmap : rest.map (nextPosOf pp
        (fun q => if q = framePage then
          advanceCursor (posGet pp framePage) i (cursors framePage)
        else cursors q) i) = rest.map (nextPosOf pp cursors i) := by
      apply List.map_congr_left
      intro q hq
      have hne : ¬(q = framePage) := fun hc => hnotin (hc ▸ hq)
      simp [nextPosOf, hne]
    cases hg : (posGet pp framePage)[advanceCursor
        (posGet pp framePage) i (cursors framePage)]? with
    | none =>
      have hnp : nextPosOf pp cursors i framePage = -1 := by
        simp [nextPosOf, hg]
      simp only [findVictim, hg, List.map_cons, selectVictimIdx, hnp]
      simp
    | some x =>
      have hnp : nextPosOf pp cursors i framePage = (x : Int) := by
        simp [nextPosOf, hg]
      simp only [findVictim, hg, List.map_cons, selectVictimIdx, hnp]
      rw [if_neg (by omega : ¬((x : Int) = -1)),
        if_neg (by omega : ¬((x : Int) = -1))]
      by_cases hf : far < (x : Int)
      · rw [if_pos hf, if_pos hf,
          findVictim_eq_selectVictimIdx pp i rest _ (k + 1) (x : Int)
            (k : Int) hnd, hmap]
      · rw [if_neg hf, if_neg hf,
          findVictim_eq_selectVictimIdx pp i rest _ (k + 1) far v hnd, hmap]

/-- A `-1` entry ends the scan at once: the first `-1` index wins,
whatever the accumulator holds. -/
theorem selectVictimIdx_first_neg_one :
    ∀ (nps : List Int) (m : Nat) (k : Nat) (far v : Int),
      nps[m]? = some (-1) →
      (∀ m' x, m' < m → nps[m']? = some x → x ≠ -1) →
      selectVictimIdx nps k far v = ((k + m : Nat) : Int)
  | [], m, k, far, v, h, _ => by simp at h
  | np :: rest, 0, k, far, v, h, _ => by
    have hnp : np = -1 := by simpa using h
    subst hnp
    simp [selectVictimIdx]
  | np :: rest, m + 1, k, far, v, h, hpre => by
    have h' : rest[m]? = some (-1) := by simpa using h
    have hnp : np ≠ -1 := hpre 0 np (by omega) (by simp)
    have hpre' : ∀ m' x, m' < m → rest[m']? = some x → x ≠ -1 := by
      intro m' x hm' hx
      exact hpre (m' + 1) x (by omega) (by simpa using hx)
    simp only [selectVictimIdx]
    rw [if_neg hnp]
    by_cases hf : far < np
    · rw [if_pos hf,
        selectVictimIdx_first_neg_one rest m (k + 1) np (k : Int) h' hpre']
      push_cast
      omega
    · rw [if_neg hf,
        selectVictimIdx_first_neg_one rest m (k + 1) far v h' hpre']
      push_cast
      omega

/-- With no `-1` entry, the scan returns either the initial accumulator
(when nothing beats `far`) or the first index of the maximum value. -/
theorem selectVictimIdx_max :
    ∀ (nps : List Int) (k : Nat) (far v : Int),
      (∀ np ∈ nps, 0 ≤ np) →
      ((∀ np ∈ nps, np ≤ far) ∧ selectVictimIdx nps k far v = v) ∨
      (∃ (m : Nat) (M : Int), nps[m]? = some M ∧ far < M ∧
        (∀ (m' : Nat) (x : Int), m' < m → nps[m']? = some x → x < M) ∧
        (∀ (m' : Nat) (x : Int), nps[m']? = some x → x ≤ M) ∧
        selectVictimIdx nps k far v = ((k + m : Nat) : Int))
  | [], k, far, v, _ => Or.inl ⟨by simp, rfl⟩
  | np :: rest, k, far, v, h => by
    have hnp0 : 0 ≤ np := h np (by simp)
    have hrest : ∀ x ∈ rest, 0 ≤ x := fun x hx => h x (by simp [hx])
    simp only [selectVictimIdx]
    rw [if_neg (by omega : ¬(np = -1))]
    by_cases hf : far < np
    · rw [if_pos hf]
      rcases selectVictimIdx_max rest (k + 1) np (k : Int) hrest with
        ⟨hall, heq⟩ | ⟨m, M, hm, hfar, hpre, hall, heq⟩
      · refine Or.inr ⟨0, np, by simp, hf, ?_, ?_, ?_⟩
        · intro m' x hm' _
          omega
        · intro m' x hx
          cases m' with
          | zero =>
            have : np = x := by simpa using hx
            omega
          | succ m'' =>
            have hx' : rest[m'']? = some x := by simpa using hx
            exact hall x (List.getElem?_mem hx')
        · rw [heq]
          push_cast
          omega
      · refine Or.inr ⟨m + 1, M, by simpa using hm, by omega, ?_, ?_, ?_⟩
        · intro m' x hm' hx
          cases m' with
          | zero =>
            have : np = x := by simpa using hx
            omega
          | succ m'' =>
            exact hpre m'' x (by omega) (by simpa using hx)
        · intro m' x hx
          cases m' with
          | zero =>
            have : np = x := by simpa using hx
            omega
          | succ m'' =>
            exact hall m'' x (by simpa using hx)
        · rw [heq]
          push_cast
          omega
    · rw [if_neg hf]
      have hle : np ≤ far := by omega
      rcases selectVictimIdx_max rest (k + 1) far v hrest with
        ⟨hall, heq⟩ | ⟨m, M, hm, hfar, hpre, hall, heq⟩
      · refine Or.inl ⟨?_, heq⟩
        intro x hx
        rcases List.mem_cons.mp hx with hx | hx
        · omega
        · exact hall x hx
      · refine Or.inr ⟨m + 1, M, by simpa using hm, hfar, ?_, ?_, ?_⟩
        · intro m' x hm' hx
          cases m' with
          | zero =>
            have : np = x := by simpa using hx
            omega
          | succ m'' =>
            exact hpre m'' x (by omega) (by simpa using hx)
        · intro m' x hx
          cases m' with
          | zero =>
            have : np = x := by simpa using hx
            omega
          | succ m'' =>
            exact hall m'' x (by simpa using hx)
        · rw [heq]
          push_cast
          omega

/-- On a full-memory miss the optimal simulator replaces the slot
`victimIndex` returned by the scan, in place. -/
theorem optimalStep_full_eq (pp : List (PageID × List Nat)) (nf : Int)
    (d : Bool) (i : Nat) (fr : List PageID) (cur : PageID → Nat)
    (fc : Nat) (lc : List (PageID × Nat)) (page : PageID)
    (hmem : page ∉ fr) (hlt : ¬((fr.length : Int) < nf)) (hne : fr ≠ []) :
    ∃ victim evs,
      fr[(findVictim pp i cur fr 0 (-1) (-1)).1.toNat]? = some victim ∧
      optimalStep pp nf d i ⟨fr, cur, fc, lc⟩ page =
        some (⟨fr.set (findVictim pp i cur fr 0 (-1) (-1)).1.toNat page,
          (findVictim pp i cur fr 0 (-1) (-1)).2, fc + 1,
          bumpLoad lc page⟩, evs) := by
  obtain ⟨hge0, hltlen⟩ := findVictim_fst_range pp i fr cur hne
  have hvlt : (findVictim pp i cur fr 0 (-1) (-1)).1.toNat < fr.length := by
    omega
  have hv1 : (findVictim pp i cur fr 0 (-1) (-1)).1.toNat' =
      some (findVictim pp i cur fr 0 (-1) (-1)).1.toNat :=
    toNat'_eq_some_of_nonneg _ hge0
  have hv2 : fr[(findVictim pp i cur fr 0 (-1) (-1)).1.toNat]? =
      some (fr.get ⟨(findVictim pp i cur fr 0 (-1) (-1)).1.toNat, hvlt⟩) :=
    List.getElem?_eq_getElem hvlt
  refine ⟨fr.get ⟨(findVictim pp i cur fr 0 (-1) (-1)).1.toNat, hvlt⟩,
    (if d then [DidacticEvent.access (i + 1) page] else [])
      ++ (if d then
        [DidacticEvent.fault
          (fr.get ⟨(findVictim pp i cur fr 0 (-1) (-1)).1.toNat, hvlt⟩)
          page] else [])
      ++ (if d then
        [DidacticEvent.memState
          ((fr.set (findVictim pp i cur fr 0 (-1) (-1)).1.toNat
            page).mergeSort (fun a b => a ≤ b))] else []),
    hv2, ?_⟩
  have hc : ¬(fr.contains page = true) := by
    simp [List.elem_eq_mem, hmem]
  simp only [optimalStep]
  rw [if_neg hc, if_neg hlt, hv1]
  dsimp only
  rw [hv2]

/-! ## The claims -/

/-- The reference trace of the spec's concrete scenario
`[A,B,C,A,B,D,A,B,C,D]`. -/
def trC1 : List PageID := ["A", "B", "C", "A", "B", "D", "A", "B", "C", "D"]

/-- Claim C1, counterexample: on the trace `[A,B,C,A,B,D,A,B,C,D]` with
`numFrames = 3` it is NOT the case that `fifoAlgorithm` reports 9 page
faults and `optimalAlgorithmOptimized` reports 7.  (The spec quotes the
fault counts of the classic 12-reference Belady trace, not of this
10-reference trace.) -/
theorem claim1_counterexample :
    ¬ (((fifoAlgorithm trC1 3 false).map (fun r => r.1.pageFaults) =
          some 9) ∧
       ((optimalAlgorithmOptimized trC1 3 (buildPositions trC1)
          false).map (fun r => r.1.pageFaults) = some 7)) := by
  decide

/-- Claim C1, amended: on the trace `[A,B,C,A,B,D,A,B,C,D]` with
`numFrames = 3`, `fifoAlgorithm` reports 8 page faults and
`optimalAlgorithmOptimized` (with the `PositionIndex` of that trace)
reports 5. -/
theorem claim1_amended :
    (fifoAlgorithm trC1 3 false).map (fun r => r.1.pageFaults) =
      some 8 ∧
    (optimalAlgorithmOptimized trC1 3 (buildPositions trC1) false).map
      (fun r => r.1.pageFaults) = some 5 := by
  constructor <;> rfl

/-- Claim C2, counterexample: at `numFrames = -1 < 1` the FIFO core
does not refuse to run: it silently simulates the trace `[A]` and
returns a normal `SimulationResult` with one fault. -/
theorem claim2_counterexample :
    fifoAlgorithm ["A"] (-1) false = some (⟨1, [("A", 1)]⟩, []) := by
  rfl

/-- Claim C2, amended: neither simulator checks `numFrames`.  For
`numFrames < 0`, `fifoAlgorithm` silently simulates with unbounded
frames (it always returns a result); for `numFrames = 0` it panics on
the first reference of a nonempty trace (`none`); and
`optimalAlgorithmOptimized` panics on the first reference whenever
`numFrames ≤ 0`.  The `numFrames ≥ 1` precondition is enforced only by
`main`'s memory-size check, before either simulator is called. -/
theorem claim2_amended (trace : List PageID) (nf : Int) (d : Bool)
    (pp : List (PageID × List Nat)) (page : PageID)
    (rest : List PageID) :
    (nf < 0 → ∃ st evs, fifoAlgorithm trace nf d = some (st, evs)) ∧
    (fifoAlgorithm (page :: rest) 0 d = none) ∧
    (nf ≤ 0 → optimalAlgorithmOptimized (page :: rest) nf pp d = none) := by
  refine ⟨?_, fifoAlgorithm_zero_frames_none d page rest,
    fun h => optimalAlgorithm_nonpos_frames_none pp nf h d page rest⟩
  intro hneg
  obtain ⟨st', evs, h⟩ := fifoRun_some_of_neg nf hneg d trace 0 fifoInit
  exact ⟨⟨st'.pageFaults, st'.loadCounts⟩, evs, by simp [fifoAlgorithm, h]⟩

/-- Claim C2, witness for the amended theorem at
`trace = [A]`, `numFrames = -1` resp. `0`. -/
theorem claim2_amended_witness :
    (∃ st evs, fifoAlgorithm ["A"] (-1) false = some (st, evs)) ∧
    fifoAlgorithm ["A"] 0 false = none ∧
    optimalAlgorithmOptimized ["A"] 0 [] false = none :=
  ⟨(claim2_amended ["A"] (-1) false [] "A" []).1 (by decide),
   (claim2_amended ["A"] 0 false [] "A" []).2.1,
   (claim2_amended ["A"] 0 false [] "A" []).2.2 (by decide)⟩

/-- Claim C4: for every trace, every `numFrames ≥ 1` and every prefix
(`trace.take k` ranges over all intermediate steps of the run,
including the full run), both simulators return a result whose
`pageFaults` equals the sum of the values of `loadCounts`. -/
theorem claim4_theorem (trace : List PageID) (nf : Int) (d : Bool)
    (pp : List (PageID × List Nat)) (h : 1 ≤ nf) (k : Nat) :
    (∃ r evs, fifoAlgorithm (trace.take k) nf d = some (r, evs) ∧
      r.pageFaults = sumLoads r.loadCounts) ∧
    (∃ r evs, optimalAlgorithmOptimized (trace.take k) nf pp d =
      some (r, evs) ∧ r.pageFaults = sumLoads r.loadCounts) := by
  constructor
  · obtain ⟨st', evs, hrun, hinv, _⟩ :=
      fifoRun_inv nf h d (trace.take k) 0 fifoInit [] (fifoInv_init nf h)
    exact ⟨⟨st'.pageFaults, st'.loadCounts⟩, evs,
      by simp [fifoAlgorithm, hrun], hinv.faults_eq⟩
  · obtain ⟨st', evs, hrun, hinv, _⟩ :=
      optimalRun_inv pp nf h d (trace.take k) 0 optInit []
        (optInv_init nf h)
    exact ⟨⟨st'.pageFaults, st'.loadCounts⟩, evs,
      by simp [optimalAlgorithmOptimized, hrun], hinv.faults_eq⟩

/-- Claim C4, witness at the spec's concrete trace with
`numFrames = 3`, prefix length 6. -/
theorem claim4_witness :
    (1 : Int) ≤ 3 ∧
    ((∃ r evs, fifoAlgorithm ((["A", "B", "C", "A", "B", "D"]).take 6)
        3 false = some (r, evs) ∧
        r.pageFaults = sumLoads r.loadCounts) ∧
     (∃ r evs, optimalAlgorithmOptimized
        ((["A", "B", "C", "A", "B", "D"]).take 6) 3 [] false =
          some (r, evs) ∧
        r.pageFaults = sumLoads r.loadCounts)) :=
  ⟨by decide, claim4_theorem ["A", "B", "C", "A", "B", "D"] 3 false
    [] (by decide) 6⟩

/-- Claim C6: the preprocessing loop of `main` builds, in one pass, a
map sending every page `p` of the trace to exactly the ascending list
of the trace indices at which `p` occurs (`occIndicesFrom p 0 trace`,
whose membership is characterised below), keeps pages that never occur
out of the map, and produces the empty map on the empty trace. -/
theorem claim6_theorem (trace : List PageID) (p : PageID) :
    ((buildPositions trace).find? (fun e => e.1 = p) =
      if p ∈ trace then some (p, occIndicesFrom p 0 trace) else none) ∧
    (∀ j, j ∈ occIndicesFrom p 0 trace ↔ trace.get? j = some p) ∧
    (occIndicesFrom p 0 trace).Pairwise (· < ·) ∧
    buildPositions [] = [] := by
  refine ⟨?_, ?_, occIndicesFrom_pairwise p trace 0, rfl⟩
  · have h := find?_buildPositionsFrom p trace 0 []
    simpa [buildPositions] using h
  · intro j
    rw [mem_occIndicesFrom p trace 0 j]
    simp

/-- Claim C8: on the empty trace, for every `numFrames ≥ 1`, both
simulators return zero page faults and an empty `loadCounts` map (and
print nothing). -/
theorem claim8_theorem (nf : Int) (d : Bool)
    (pp : List (PageID × List Nat)) (_h : 1 ≤ nf) :
    fifoAlgorithm [] nf d = some (⟨0, []⟩, []) ∧
    optimalAlgorithmOptimized [] nf pp d = some (⟨0, []⟩, []) := by
  constructor <;> rfl

/-- Claim C8, witness at `numFrames = 4`. -/
theorem claim8_witness :
    (1 : Int) ≤ 4 ∧
    (fifoAlgorithm [] 4 false = some (⟨0, []⟩, []) ∧
     optimalAlgorithmOptimized [] 4 [] false = some (⟨0, []⟩, [])) :=
  ⟨by decide, claim8_theorem 4 false [] (by decide)⟩

/-- Claim C9: for every trace and every `numFrames ≥ 1`, running a
simulator with `didacticMode = true` yields the same
`SimulationResult` (the `Prod.fst` of the output; the didactic event
log is the only part that may differ) as running it with
`didacticMode = false`. -/
theorem claim9_theorem (trace : List PageID) (nf : Int) (d : Bool)
    (pp : List (PageID × List Nat)) (_h : 1 ≤ nf) :
    (fifoAlgorithm trace nf d).map Prod.fst =
      (fifoAlgorithm trace nf false).map Prod.fst ∧
    (optimalAlgorithmOptimized trace nf pp d).map Prod.fst =
      (optimalAlgorithmOptimized trace nf pp false).map Prod.fst := by
  constructor
  · have h1 := fifoRun_fst_eq nf d false trace 0 fifoInit
    cases hA : fifoRun nf d 0 fifoInit trace with
    | none =>
      cases hB : fifoRun nf false 0 fifoInit trace with
      | none => simp [fifoAlgorithm, hA, hB]
      | some rb =>
        rw [hA, hB] at h1
        simp at h1
    | some ra =>
      cases hB : fifoRun nf false 0 fifoInit trace with
      | none =>
        rw [hA, hB] at h1
        simp at h1
      | some rb =>
        obtain ⟨ra1, rea⟩ := ra
        obtain ⟨rb1, reb⟩ := rb
        rw [hA, hB] at h1
        replace h1 : ra1 = rb1 := by simpa using h1
        subst h1
        simp [fifoAlgorithm, hA, hB]
  · have h1 := optimalRun_fst_eq pp nf d false trace 0 optInit
    cases hA : optimalRun pp nf d 0 optInit trace with
    | none =>
      cases hB : optimalRun pp nf false 0 optInit trace with
      | none => simp [optimalAlgorithmOptimized, hA, hB]
      | some rb =>
        rw [hA, hB] at h1
        simp at h1
    | some ra =>
      cases hB : optimalRun pp nf false 0 optInit trace with
      | none =>
        rw [hA, hB] at h1
        simp at h1
      | some rb =>
        obtain ⟨ra1, rea⟩ := ra
        obtain ⟨rb1, reb⟩ := rb
        rw [hA, hB] at h1
        replace h1 : ra1 = rb1 := by simpa using h1
        subst h1
        simp [optimalAlgorithmOptimized, hA, hB]

/-- Claim C9, witness at trace `[A,B,A]`, `numFrames = 1`,
`didacticMode = true`. -/
theorem claim9_witness :
    (1 : Int) ≤ 1 ∧
    ((fifoAlgorithm ["A", "B", "A"] 1 true).map Prod.fst =
      (fifoAlgorithm ["A", "B", "A"] 1 false).map Prod.fst ∧
     (optimalAlgorithmOptimized ["A", "B", "A"] 1
        (buildPositions ["A", "B", "A"]) true).map Prod.fst =
      (optimalAlgorithmOptimized ["A", "B", "A"] 1
        (buildPositions ["A", "B", "A"]) false).map Prod.fst) :=
  ⟨by decide, claim9_theorem ["A", "B", "A"] 1 true
    (buildPositions ["A", "B", "A"]) (by decide)⟩

/-- Claim C10: for every trace and every `numFrames ≥ 1`, in both
simulators every `loadCounts` key is a page of the trace with a count
`≥ 1`, every page of the trace is a `loadCounts` key (its first
occurrence faulted), and `pageFaults` is at least the number of
distinct pages of the trace. -/
theorem claim10_theorem (trace : List PageID) (nf : Int) (d : Bool)
    (pp : List (PageID × List Nat)) (h : 1 ≤ nf) :
    (∃ r evs, fifoAlgorithm trace nf d = some (r, evs) ∧
      (∀ e ∈ r.loadCounts, e.1 ∈ trace ∧ 1 ≤ e.2) ∧
      (∀ p ∈ trace, p ∈ loadKeys r.loadCounts) ∧
      trace.dedup.length ≤ r.pageFaults) ∧
    (∃ r evs, optimalAlgorithmOptimized trace nf pp d = some (r, evs) ∧
      (∀ e ∈ r.loadCounts, e.1 ∈ trace ∧ 1 ≤ e.2) ∧
      (∀ p ∈ trace, p ∈ loadKeys r.loadCounts) ∧
      trace.dedup.length ≤ r.pageFaults) := by
  constructor
  · obtain ⟨st', evs, hrun, hinv, _⟩ :=
      fifoRun_inv nf h d trace 0 fifoInit [] (fifoInv_init nf h)
    refine ⟨⟨st'.pageFaults, st'.loadCounts⟩, evs,
      by simp [fifoAlgorithm, hrun], ?_, ?_, ?_⟩
    · intro e he
      refine ⟨?_, hinv.vals_pos e he⟩
      have hk : e.1 ∈ loadKeys st'.loadCounts :=
        List.mem_map.mpr ⟨e, he, rfl⟩
      simpa using (hinv.keys_seen e.1).mp hk
    · intro p hp
      exact (hinv.keys_seen p).mpr (by simpa using hp)
    · have hsub : trace.dedup ⊆ loadKeys st'.loadCounts := by
        intro p hp
        exact (hinv.keys_seen p).mpr (by simpa using List.mem_dedup.mp hp)
      have h1 : trace.dedup.length ≤ (loadKeys st'.loadCounts).length :=
        ((List.nodup_dedup trace).subperm hsub).length_le
      have h2 : (loadKeys st'.loadCounts).length = st'.loadCounts.length :=
        loadKeys_length st'.loadCounts
      have h3 : st'.loadCounts.length ≤ sumLoads st'.loadCounts :=
        length_le_sumLoads st'.loadCounts hinv.vals_pos
      have h4 := hinv.faults_eq
      dsimp only
      omega
  · obtain ⟨st', evs, hrun, hinv, _⟩ :=
      optimalRun_inv pp nf h d trace 0 optInit [] (optInv_init nf h)
    refine ⟨⟨st'.pageFaults, st'.loadCounts⟩, evs,
      by simp [optimalAlgorithmOptimized, hrun], ?_, ?_, ?_⟩
    · intro e he
      refine ⟨?_, hinv.vals_pos e he⟩
      have hk : e.1 ∈ loadKeys st'.loadCounts :=
        List.mem_map.mpr ⟨e, he, rfl⟩
      simpa using (hinv.keys_seen e.1).mp hk
    · intro p hp
      exact (hinv.keys_seen p).mpr (by simpa using hp)
    · have hsub : trace.dedup ⊆ loadKeys st'.loadCounts := by
        intro p hp
        exact (hinv.keys_seen p).mpr (by simpa using List.mem_dedup.mp hp)
      have h1 : trace.dedup.length ≤ (loadKeys st'.loadCounts).length :=
        ((List.nodup_dedup trace).subperm hsub).length_le
      have h2 : (loadKeys st'.loadCounts).length = st'.loadCounts.length :=
        loadKeys_length st'.loadCounts
      have h3 : st'.loadCounts.length ≤ sumLoads st'.loadCounts :=
        length_le_sumLoads st'.loadCounts hinv.vals_pos
      have h4 := hinv.faults_eq
      dsimp only
      omega

/-- Claim C10, witness at trace `[A,B,A]`, `numFrames = 2`. -/
theorem claim10_witness :
    (1 : Int) ≤ 2 ∧
    ((∃ r evs, fifoAlgorithm ["A", "B", "A"] 2 false = some (r, evs) ∧
      (∀ e ∈ r.loadCounts, e.1 ∈ ["A", "B", "A"] ∧ 1 ≤ e.2) ∧
      (∀ p ∈ ["A", "B", "A"], p ∈ loadKeys r.loadCounts) ∧
      (["A", "B", "A"]).dedup.length ≤ r.pageFaults) ∧
     (∃ r evs, optimalAlgorithmOptimized ["A", "B", "A"] 2 [] false =
        some (r, evs) ∧
      (∀ e ∈ r.loadCounts, e.1 ∈ ["A", "B", "A"] ∧ 1 ≤ e.2) ∧
      (∀ p ∈ ["A", "B", "A"], p ∈ loadKeys r.loadCounts) ∧
      (["A", "B", "A"]).dedup.length ≤ r.pageFaults)) :=
  ⟨by decide, claim10_theorem ["A", "B", "A"] 2 false [] (by decide)⟩

/-- Claim C7: for every trace and `numFrames ≥ 1`, at every
intermediate step (prefix `trace.take k'`) of either simulator the
number of resident pages never exceeds `numFrames`; and once some
earlier step (prefix `trace.take k`, `k ≤ k'`) has produced at least
`numFrames` misses on distinct pages (distinct pages = `loadCounts`
keys), the resident count equals `numFrames` for the rest of the
run. -/
theorem claim7_theorem (trace : List PageID) (nf : Int) (d : Bool)
    (pp : List (PageID × List Nat)) (h : 1 ≤ nf) (k k' : Nat)
    (hkk : k ≤ k') :
    (∃ st evs st' evs',
      fifoRun nf d 0 fifoInit (trace.take k) = some (st, evs) ∧
      fifoRun nf d 0 fifoInit (trace.take k') = some (st', evs') ∧
      st'.frames.length ≤ nf.toNat ∧
      (nf.toNat ≤ (loadKeys st.loadCounts).length →
        st'.frames.length = nf.toNat)) ∧
    (∃ st evs st' evs',
      optimalRun pp nf d 0 optInit (trace.take k) = some (st, evs) ∧
      optimalRun pp nf d 0 optInit (trace.take k') = some (st', evs') ∧
      st'.frames.length ≤ nf.toNat ∧
      (nf.toNat ≤ (loadKeys st.loadCounts).length →
        st'.frames.length = nf.toNat)) := by
  have hsplit : trace.take k' =
      trace.take k ++ (trace.take k').drop k := by
    conv_lhs => rw [← List.take_append_drop k (trace.take k')]
    rw [List.take_take, min_eq_left hkk]
  constructor
  · obtain ⟨st, evs, hk1, hinvk, _⟩ :=
      fifoRun_inv nf h d (trace.take k) 0 fifoInit [] (fifoInv_init nf h)
    obtain ⟨st', evs2, hk2, hinvk', hmono⟩ :=
      fifoRun_inv nf h d ((trace.take k').drop k)
        (0 + (trace.take k).length) st (trace.take k) hinvk
    have hrun' : fifoRun nf d 0 fifoInit (trace.take k') =
        some (st', evs ++ evs2) := by
      rw [hsplit,
        fifoRun_append nf d (trace.take k) ((trace.take k').drop k)
          0 fifoInit, hk1]
      dsimp only
      rw [hk2]
    refine ⟨st, evs, st', evs ++ evs2, hk1, hrun', ?_, ?_⟩
    · have := hinvk'.len_eq
      omega
    · intro hge
      have hsub : loadKeys st.loadCounts ⊆ loadKeys st'.loadCounts :=
        fun p hp => hmono p hp
      have h1 : (loadKeys st.loadCounts).length ≤
          (loadKeys st'.loadCounts).length :=
        (hinvk.keys_nodup.subperm hsub).length_le
      have h2 := loadKeys_length st'.loadCounts
      have h3 := length_le_sumLoads st'.loadCounts hinvk'.vals_pos
      have h4 := hinvk'.faults_eq
      have h5 := hinvk'.len_eq
      omega
  · obtain ⟨st, evs, hk1, hinvk, _⟩ :=
      optimalRun_inv pp nf h d (trace.take k) 0 optInit []
        (optInv_init nf h)
    obtain ⟨st', evs2, hk2, hinvk', hmono⟩ :=
      optimalRun_inv pp nf h d ((trace.take k').drop k)
        (0 + (trace.take k).length) st (trace.take k) hinvk
    have hrun' : optimalRun pp nf d 0 optInit (trace.take k') =
        some (st', evs ++ evs2) := by
      rw [hsplit,
        optimalRun_append pp nf d (trace.take k) ((trace.take k').drop k)
          0 optInit, hk1]
      dsimp only
      rw [hk2]
    refine ⟨st, evs, st', evs ++ evs2, hk1, hrun', ?_, ?_⟩
    · have := hinvk'.len_eq
      omega
    · intro hge
      have hsub : loadKeys st.loadCounts ⊆ loadKeys st'.loadCounts :=
        fun p hp => hmono p hp
      have h1 : (loadKeys st.loadCounts).length ≤
          (loadKeys st'.loadCounts).length :=
        (hinvk.keys_nodup.subperm hsub).length_le
      have h2 := loadKeys_length st'.loadCounts
      have h3 := length_le_sumLoads st'.loadCounts hinvk'.vals_pos
      have h4 := hinvk'.faults_eq
      have h5 := hinvk'.len_eq
      omega

/-- Claim C7, witness at trace `[A,B,C]`, `numFrames = 1`,
prefixes of lengths 2 and 3. -/
theorem claim7_witness :
    ((1 : Int) ≤ 1 ∧ 2 ≤ 3) ∧
    ((∃ st evs st' evs',
      fifoRun 1 false 0 fifoInit ((["A", "B", "C"]).take 2) =
        some (st, evs) ∧
      fifoRun 1 false 0 fifoInit ((["A", "B", "C"]).take 3) =
        some (st', evs') ∧
      st'.frames.length ≤ (1 : Int).toNat ∧
      ((1 : Int).toNat ≤ (loadKeys st.loadCounts).length →
        st'.frames.length = (1 : Int).toNat)) ∧
     (∃ st evs st' evs',
      optimalRun [] 1 false 0 optInit ((["A", "B", "C"]).take 2) =
        some (st, evs) ∧
      optimalRun [] 1 false 0 optInit ((["A", "B", "C"]).take 3) =
        some (st', evs') ∧
      st'.frames.length ≤ (1 : Int).toNat ∧
      ((1 : Int).toNat ≤ (loadKeys st.loadCounts).length →
        st'.frames.length = (1 : Int).toNat))) :=
  ⟨⟨by decide, by decide⟩,
   claim7_theorem ["A", "B", "C"] 1 false [] (by decide) 2 3
     (by decide)⟩

/-- Claim C5: on every full-memory miss of `optimalAlgorithmOptimized`
(page not resident, resident count equal to `numFrames ≥ 1`, resident
pages distinct), the evicted slot `j` is chosen exactly as the spec
says: if some resident page has no future occurrence (its computed
`nextPos` is `-1`), the first such page in frame-enumeration order is
evicted; otherwise the page with the strictly largest next-occurrence
index is evicted, the earlier-enumerated frame winning ties. -/
theorem claim5_theorem (pp : List (PageID × List Nat)) (nf : Int)
    (d : Bool) (i : Nat) (st : OptState) (page : PageID)
    (hmiss : page ∉ st.frames) (hfull : (st.frames.length : Int) = nf)
    (hnf : 1 ≤ nf) (hnd : st.frames.Nodup) :
    ∃ (j : Nat) (victim : PageID) (st' : OptState)
      (evs : List DidacticEvent),
      optimalStep pp nf d i st page = some (st', evs) ∧
      st.frames[j]? = some victim ∧
      st'.frames = st.frames.set j page ∧
      ((∃ q ∈ st.frames, nextPosOf pp st.nextUseCursor i q = -1) →
        nextPosOf pp st.nextUseCursor i victim = -1 ∧
        ∀ (m : Nat) (q' : PageID), m < j → st.frames[m]? = some q' →
          nextPosOf pp st.nextUseCursor i q' ≠ -1) ∧
      ((∀ q ∈ st.frames, nextPosOf pp st.nextUseCursor i q ≠ -1) →
        (∀ (m : Nat) (q' : PageID), st.frames[m]? = some q' →
          nextPosOf pp st.nextUseCursor i q' ≤
            nextPosOf pp st.nextUseCursor i victim) ∧
        (∀ (m : Nat) (q' : PageID), m < j → st.frames[m]? = some q' →
          nextPosOf pp st.nextUseCursor i q' <
            nextPosOf pp st.nextUseCursor i victim)) := by
  obtain ⟨fr, cur, fc, lc⟩ := st
  dsimp only at hmiss hfull hnd ⊢
  have hlt : ¬((fr.length : Int) < nf) := by omega
  have hne : fr ≠ [] := by
    intro h0
    rw [h0] at hfull
    simp at hfull
    omega
  obtain ⟨victim, evs, hv2, heq⟩ :=
    optimalStep_full_eq pp nf d i fr cur fc lc page hmiss hlt hne
  have hsel := findVictim_eq_selectVictimIdx pp i fr cur 0 (-1) (-1) hnd
  by_cases hA : ∃ q ∈ fr, nextPosOf pp cur i q = -1
  case pos =>
    have hmex : ∃ m : Nat,
        (fr.map (nextPosOf pp cur i))[m]? = some (-1) := by
      obtain ⟨q0, hq0mem, hq0⟩ := hA
      obtain ⟨n, hn⟩ := List.mem_iff_get.mp hq0mem
      refine ⟨n, ?_⟩
      simp only [List.getElem?_map]
      rw [List.getElem?_eq_getElem n.isLt]
      simp only [List.get_eq_getElem] at hn
      simp [hn, hq0]
    obtain ⟨m0, hm0, hmin⟩ : ∃ m0,
        (fr.map (nextPosOf pp cur i))[m0]? = some (-1) ∧
        ∀ m' < m0, ¬((fr.map (nextPosOf pp cur i))[m']? = some (-1)) := by
      classical
      exact ⟨Nat.find hmex, Nat.find_spec hmex,
        fun m' hm' => Nat.find_min hmex hm'⟩
    have hselA : selectVictimIdx (fr.map (nextPosOf pp cur i))
        0 (-1) (-1) = ((0 + m0 : Nat) : Int) := by
      apply selectVictimIdx_first_neg_one _ m0 0 (-1) (-1) hm0
      intro m' x hm' hx hxeq
      exact hmin m' hm' (hxeq ▸ hx)
    have hJ : (findVictim pp i cur fr 0 (-1) (-1)).1 =
        ((m0 : Nat) : Int) := by
      rw [hsel, hselA]
      norm_num
    have hJnat : (findVictim pp i cur fr 0 (-1) (-1)).1.toNat = m0 := by
      rw [hJ]
      exact Int.toNat_natCast _
    rw [hJnat] at heq hv2
    have hnp_vic : nextPosOf pp cur i victim = -1 := by
      have h1 := hm0
      simp only [List.getElem?_map] at h1
      rw [hv2] at h1
      simpa using h1
    refine ⟨m0, victim,
      ⟨fr.set m0 page,
        (findVictim pp i cur fr 0 (-1) (-1)).2, fc + 1,
        bumpLoad lc page⟩, evs, heq, hv2, rfl, ?_, ?_⟩
    · intro _
      refine ⟨hnp_vic, ?_⟩
      intro m q' hm' hq' hcontra
      apply hmin m hm'
      simp [List.getElem?_map, hq', hcontra]
    · intro hB
      exfalso
      obtain ⟨q0, hq0mem, hq0⟩ := hA
      exact hB q0 hq0mem hq0
  case neg =>
    push_neg at hA
    have hpos : ∀ x ∈ fr.map (nextPosOf pp cur i), 0 ≤ x := by
      intro x hx
      obtain ⟨q, hq, rfl⟩ := List.mem_map.mp hx
      rcases nextPosOf_shape pp cur i q with h0 | h0
      · exact absurd h0 (hA q hq)
      · exact h0
    rcases selectVictimIdx_max (fr.map (nextPosOf pp cur i))
        0 (-1) (-1) hpos with
      ⟨hall, _⟩ | ⟨m, M, hm, _, hpre, hallle, heq'⟩
    · exfalso
      obtain ⟨q0, hq0⟩ := List.exists_mem_of_ne_nil fr hne
      have h1 : nextPosOf pp cur i q0 ∈ fr.map (nextPosOf pp cur i) :=
        List.mem_map.mpr ⟨q0, hq0, rfl⟩
      have h2 := hall _ h1
      have h3 := hpos _ h1
      omega
    · have hJ : (findVictim pp i cur fr 0 (-1) (-1)).1 =
          ((m : Nat) : Int) := by
        rw [hsel, heq']
        norm_num
      have hJnat : (findVictim pp i cur fr 0 (-1) (-1)).1.toNat = m := by
        rw [hJ]
        exact Int.toNat_natCast _
      rw [hJnat] at heq hv2
      have hnp_vic : nextPosOf pp cur i victim = M := by
        have h1 := hm
        simp only [List.getElem?_map] at h1
        rw [hv2] at h1
        simpa using h1
      refine ⟨m, victim,
        ⟨fr.set m page, (findVictim pp i cur fr 0 (-1) (-1)).2, fc + 1,
          bumpLoad lc page⟩, evs, heq, hv2, rfl, ?_, ?_⟩
      · intro hcontra
        exfalso
        obtain ⟨q0, hq0mem, hq0⟩ := hcontra
        exact hA q0 hq0mem hq0
      · intro _
        constructor
        · intro m' q' hq'
          have hmm : (fr.map (nextPosOf pp cur i))[m']? =
              some (nextPosOf pp cur i q') := by
            simp [List.getElem?_map, hq']
          have hle := hallle m' _ hmm
          rw [hnp_vic]
          exact hle
        · intro m' q' hm' hq'
          have hmm : (fr.map (nextPosOf pp cur i))[m']? =
              some (nextPosOf pp cur i q') := by
            simp [List.getElem?_map, hq']
          have hlt' := hpre m' _ hm' hmm
          rw [hnp_vic]
          exact hlt'

/-- Claim C5, witness: a full-memory miss of page `C` at step `i = 2`
with resident pages `[A, B]` and the `PositionIndex` of the trace
`[A,B,C,A]` (page `B` is never used again, so it is the victim). -/
theorem claim5_witness :
    (("C" : PageID) ∉ (["A", "B"] : List PageID) ∧
     (((["A", "B"] : List PageID).length : Int) = 2 ∧
      (1 : Int) ≤ 2 ∧ (["A", "B"] : List PageID).Nodup)) ∧
    (∃ (j : Nat) (victim : PageID) (st' : OptState)
       (evs : List DidacticEvent),
      optimalStep (buildPositions ["A", "B", "C", "A"]) 2 false 2
        (⟨["A", "B"], fun _ => 0, 2, [("A", 1), ("B", 1)]⟩ : OptState)
        "C" = some (st', evs) ∧
      (["A", "B"] : List PageID)[j]? = some victim ∧
      st'.frames = (["A", "B"] : List PageID).set j "C" ∧
      ((∃ q ∈ (["A", "B"] : List PageID),
          nextPosOf (buildPositions ["A", "B", "C", "A"])
            (fun _ => 0) 2 q = -1) →
        nextPosOf (buildPositions ["A", "B", "C", "A"]) (fun _ => 0) 2
          victim = -1 ∧
        ∀ (m : Nat) (q' : PageID), m < j →
          (["A", "B"] : List PageID)[m]? = some q' →
          nextPosOf (buildPositions ["A", "B", "C", "A"]) (fun _ => 0)
            2 q' ≠ -1) ∧
      ((∀ q ∈ (["A", "B"] : List PageID),
          nextPosOf (buildPositions ["A", "B", "C", "A"])
            (fun _ => 0) 2 q ≠ -1) →
        (∀ (m : Nat) (q' : PageID),
          (["A", "B"] : List PageID)[m]? = some q' →
          nextPosOf (buildPositions ["A", "B", "C", "A"]) (fun _ => 0)
            2 q' ≤ nextPosOf (buildPositions ["A", "B", "C", "A"])
              (fun _ => 0) 2 victim) ∧
        (∀ (m : Nat) (q' : PageID), m < j →
          (["A", "B"] : List PageID)[m]? = some q' →
          nextPosOf (buildPositions ["A", "B", "C", "A"]) (fun _ => 0)
            2 q' < nextPosOf (buildPositions ["A", "B", "C", "A"])
              (fun _ => 0) 2 victim))) :=
  ⟨⟨by decide, by decide, by decide, by decide⟩,
   claim5_theorem (buildPositions ["A", "B", "C", "A"]) 2 false 2
     ⟨["A", "B"], fun _ => 0, 2, [("A", 1), ("B", 1)]⟩ "C"
     (by decide) (by decide) (by decide) (by decide)⟩

/-! ## An abstract offline-optimal paging cost

`optCost nf T C` is the least number of page faults any demand-paging
policy can incur serving the reference list `T` from the cache
(resident set) `C` with capacity `nf`: on a full-memory miss it takes
the best possible eviction.  It is the yardstick for Belady's bound
(claim C3): the implemented optimal simulator attains it and FIFO
cannot beat it. -/
def optCost (nf : Nat) : List PageID → Finset PageID → Nat
  | [], _ => 0
  | r :: T, C =>
    if r ∈ C then optCost nf T C
    else if C.card < nf then optCost nf T (insert r C) + 1
    else if h : C.Nonempty then
      (C.inf' h fun y => optCost nf T (insert r (C.erase y))) + 1
    else optCost nf T (insert r C) + 1

theorem optCost_hit (nf : Nat) (r : PageID) (T : List PageID)
    (C : Finset PageID) (hr : r ∈ C) :
    optCost nf (r :: T) C = optCost nf T C := by
  simp [optCost, hr]

theorem optCost_miss_notfull (nf : Nat) (r : PageID) (T : List PageID)
    (C : Finset PageID) (hr : r ∉ C) (hc : C.card < nf) :
    optCost nf (r :: T) C = optCost nf T (insert r C) + 1 := by
  simp [optCost, hr, hc]

theorem optCost_miss_full (nf : Nat) (r : PageID) (T : List PageID)
    (C : Finset PageID) (hr : r ∉ C) (hc : ¬(C.card < nf))
    (h : C.Nonempty) :
    optCost nf (r :: T) C =
      (C.inf' h fun y => optCost nf T (insert r (C.erase y))) + 1 := by
  simp only [optCost, hr, if_false, hc]
  rw [dif_pos h]

/-- A larger cache never incurs more optimal faults. -/
theorem optCost_mono (nf : Nat) :
    ∀ (T : List PageID) (C C' : Finset PageID),
      C ⊆ C' → C'.card ≤ nf → optCost nf T C' ≤ optCost nf T C
  | [], _, _, _, _ => le_refl 0
  | r :: T, C, C', hsub, hcard => by
    by_cases hrC : r ∈ C
    · have hrC' : r ∈ C' := hsub hrC
      rw [optCost_hit nf r T C hrC, optCost_hit nf r T C' hrC']
      exact optCost_mono nf T C C' hsub hcard
    · by_cases hrC' : r ∈ C'
      · -- `C` misses while `C'` hits
        rw [optCost_hit nf r T C' hrC']
        have hlt : C.card < C'.card :=
          Finset.card_lt_card ⟨hsub, fun h => hrC (h hrC')⟩
        have hCcard : C.card < nf := by omega
        rw [optCost_miss_notfull nf r T C hrC hCcard]
        have hins : insert r C ⊆ C' := by
          intro x hx
          rcases Finset.mem_insert.mp hx with rfl | hx
          · exact hrC'
          · exact hsub hx
        calc optCost nf T C' ≤ optCost nf T (insert r C) :=
              optCost_mono nf T (insert r C) C' hins hcard
          _ ≤ optCost nf T (insert r C) + 1 := Nat.le_succ _
      · -- both miss
        by_cases hcf' : C'.card < nf
        · have hcf : C.card < nf :=
            lt_of_le_of_lt (Finset.card_le_card hsub) hcf'
          rw [optCost_miss_notfull nf r T C hrC hcf,
            optCost_miss_notfull nf r T C' hrC' hcf']
          have hsub2 : insert r C ⊆ insert r C' :=
            Finset.insert_subset_insert r hsub
          have hcard2 : (insert r C').card ≤ nf := by
            rw [Finset.card_insert_of_not_mem hrC']
            omega
          exact Nat.add_le_add_right
            (optCost_mono nf T (insert r C) (insert r C') hsub2 hcard2) 1
        · by_cases hcf2 : C.card < nf
          · -- `C'` is full, `C` is not: drop an element of `C' \ C`
            have hne' : C'.Nonempty := by
              rw [← Finset.card_pos]
              omega
            rw [optCost_miss_notfull nf r T C hrC hcf2,
              optCost_miss_full nf r T C' hrC' hcf' hne']
            have hx : ∃ a ∈ C', a ∉ C := by
              by_contra hc2
              push_neg at hc2
              have hsub' : C' ⊆ C := fun x hx => hc2 x hx
              have := Finset.card_le_card hsub'
              omega
            obtain ⟨y', hy'C', hy'notC⟩ := hx
            have hsub2 : insert r C ⊆ insert r (C'.erase y') := by
              intro x hx2
              rcases Finset.mem_insert.mp hx2 with rfl | hx2
              · exact Finset.mem_insert_self _ _
              · exact Finset.mem_insert_of_mem (Finset.mem_erase.mpr
                  ⟨fun hc => hy'notC (hc ▸ hx2), hsub hx2⟩)
            have hrer : r ∉ C'.erase y' :=
              fun hc => hrC' (Finset.mem_of_mem_erase hc)
            have hcard2 : (insert r (C'.erase y')).card ≤ nf := by
              rw [Finset.card_insert_of_not_mem hrer]
              have := Finset.card_erase_add_one hy'C'
              omega
            calc (C'.inf' hne' fun y =>
                  optCost nf T (insert r (C'.erase y))) + 1
                ≤ optCost nf T (insert r (C'.erase y')) + 1 :=
                  Nat.add_le_add_right (Finset.inf'_le _ hy'C') 1
              _ ≤ optCost nf T (insert r C) + 1 :=
                  Nat.add_le_add_right
                    (optCost_mono nf T (insert r C) _ hsub2 hcard2) 1
          · -- both at (or beyond) capacity: the caches coincide
            have hCeq : C = C' := Finset.eq_of_subset_of_card_le hsub
              (by omega)
            subst hCeq
            exact le_refl _

/-- Combined exchange lemmas, by strong induction on the trace length:
swapping one cached page for another costs at most one extra fault, and
dropping one page from a non-full cache costs at most one extra fault. -/
theorem optCost_swap_drop (nf : Nat) :
    ∀ (n : Nat) (T : List PageID), T.length ≤ n →
      ((∀ (E : Finset PageID) (u v : PageID), u ∉ E → v ∉ E →
          optCost nf T (insert u E) ≤ optCost nf T (insert v E) + 1) ∧
       (∀ (C : Finset PageID) (a : PageID), a ∉ C → C.card < nf →
          optCost nf T C ≤ optCost nf T (insert a C) + 1))
  | n, [], _ => by
    constructor
    · intro E u v _ _
      simp [optCost]
    · intro C a _ _
      simp [optCost]
  | 0, r :: T, hT => by simp at hT
  | n + 1, r :: T, hT => by
    have hT' : T.length ≤ n := by
      simp only [List.length_cons] at hT
      omega
    obtain ⟨Mswap, Mdrop⟩ := optCost_swap_drop nf n T hT'
    constructor
    · -- swap
      intro E u v hu hv
      by_cases huv : u = v
      · subst huv
        exact Nat.le_succ_of_le (le_refl _)
      by_cases hrE : r ∈ E
      · rw [optCost_hit nf r T _ (Finset.mem_insert_of_mem hrE),
          optCost_hit nf r T _ (Finset.mem_insert_of_mem hrE)]
        exact Mswap E u v hu hv
      by_cases hru : r = u
      · -- the request is the page `u` held only by the left cache
        subst hru
        rw [optCost_hit nf r T _ (Finset.mem_insert_self r E)]
        have hrv : r ∉ insert v E := by
          rw [Finset.mem_insert]
          push_neg
          exact ⟨huv, hrE⟩
        by_cases hcf : (insert v E).card < nf
        · rw [optCost_miss_notfull nf r T _ hrv hcf]
          have hcu : (insert r E).card < nf := by
            rw [Finset.card_insert_of_not_mem hrE]
            rw [Finset.card_insert_of_not_mem hv] at hcf
            omega
          have hvr : v ∉ insert r E := by
            rw [Finset.mem_insert]
            push_neg
            exact ⟨fun hc => huv hc.symm, hv⟩
          have h1 := Mdrop (insert r E) v hvr hcu
          rw [Finset.Insert.comm] at h1
          omega
        · have hne : (insert v E).Nonempty := ⟨v, Finset.mem_insert_self v E⟩
          rw [optCost_miss_full nf r T _ hrv hcf hne]
          obtain ⟨y0, hy0, hy0eq⟩ := Finset.exists_mem_eq_inf' hne
            (fun y => optCost nf T (insert r ((insert v E).erase y)))
          rw [hy0eq]
          rcases Finset.mem_insert.mp hy0 with rfl | hy0E
          · rw [Finset.erase_insert hv]
            omega
          · have hvy0 : v ≠ y0 := fun hc => hv (hc ▸ hy0E)
            rw [Finset.erase_insert_of_ne hvy0]
            have hy0u : y0 ∉ insert r (E.erase y0) := by
              rw [Finset.mem_insert]
              push_neg
              exact ⟨fun hc => hrE (hc ▸ hy0E), Finset.not_mem_erase y0 E⟩
            have hvE' : v ∉ insert r (E.erase y0) := by
              rw [Finset.mem_insert]
              push_neg
              exact ⟨fun hc => huv hc.symm,
                fun hc => hv (Finset.mem_of_mem_erase hc)⟩
            have h1 := Mswap (insert r (E.erase y0)) y0 v hy0u hvE'
            rw [Finset.Insert.comm y0 r, Finset.Insert.comm v r,
              Finset.insert_erase hy0E] at h1
            omega
      by_cases hrv : r = v
      · -- the request is the page `v` held only by the right cache
        subst hrv
        rw [optCost_hit nf r T _ (Finset.mem_insert_self r E)]
        have hru' : r ∉ insert u E := by
          rw [Finset.mem_insert]
          push_neg
          exact ⟨fun hc => huv hc.symm, hrE⟩
        by_cases hcf : (insert u E).card < nf
        · rw [optCost_miss_notfull nf r T _ hru' hcf]
          have hsubm : insert r E ⊆ insert r (insert u E) :=
            Finset.insert_subset_insert r (Finset.subset_insert u E)
          have hcardm : (insert r (insert u E)).card ≤ nf := by
            rw [Finset.card_insert_of_not_mem hru']
            omega
          have h1 := optCost_mono nf T (insert r E) (insert r (insert u E))
            hsubm hcardm
          omega
        · have hne : (insert u E).Nonempty := ⟨u, Finset.mem_insert_self u E⟩
          rw [optCost_miss_full nf r T _ hru' hcf hne]
          have h1 : ((insert u E).inf' hne fun y =>
              optCost nf T (insert r ((insert u E).erase y))) ≤
              optCost nf T (insert r E) := by
            have h2 := Finset.inf'_le
              (fun y => optCost nf T (insert r ((insert u E).erase y)))
              (Finset.mem_insert_self u E)
            rwa [Finset.erase_insert hu] at h2
          omega
      · -- the request is outside `E ∪ {u, v}`: both caches miss
        have hru2 : r ∉ insert u E := by
          rw [Finset.mem_insert]
          push_neg
          exact ⟨hru, hrE⟩
        have hrv2 : r ∉ insert v E := by
          rw [Finset.mem_insert]
          push_neg
          exact ⟨hrv, hrE⟩
        by_cases hcf : (insert u E).card < nf
        · have hcf2 : (insert v E).card < nf := by
            rw [Finset.card_insert_of_not_mem hv]
            rw [Finset.card_insert_of_not_mem hu] at hcf
            omega
          rw [optCost_miss_notfull nf r T _ hru2 hcf,
            optCost_miss_notfull nf r T _ hrv2 hcf2]
          have huE' : u ∉ insert r E := by
            rw [Finset.mem_insert]
            push_neg
            exact ⟨fun hc => hru hc.symm, hu⟩
          have hvE' : v ∉ insert r E := by
            rw [Finset.mem_insert]
            push_neg
            exact ⟨fun hc => hrv hc.symm, hv⟩
          have h1 := Mswap (insert r E) u v huE' hvE'
          rw [Finset.Insert.comm u r, Finset.Insert.comm v r] at h1
          omega
        · have hcf2 : ¬((insert v E).card < nf) := by
            rw [Finset.card_insert_of_not_mem hv]
            rw [Finset.card_insert_of_not_mem hu] at hcf
            omega
          have hneu : (insert u E).Nonempty := ⟨u, Finset.mem_insert_self u E⟩
          have hnev : (insert v E).Nonempty := ⟨v, Finset.mem_insert_self v E⟩
          rw [optCost_miss_full nf r T _ hru2 hcf hneu,
            optCost_miss_full nf r T _ hrv2 hcf2 hnev]
          obtain ⟨y0, hy0, hy0eq⟩ := Finset.exists_mem_eq_inf' hnev
            (fun y => optCost nf T (insert r ((insert v E).erase y)))
          rw [hy0eq]
          rcases Finset.mem_insert.mp hy0 with rfl | hy0E
          · -- mirror by evicting `u` on the left
            rw [Finset.erase_insert hv]
            have h1 : ((insert u E).inf' hneu fun y =>
                optCost nf T (insert r ((insert u E).erase y))) ≤
                optCost nf T (insert r E) := by
              have h2 := Finset.inf'_le
                (fun y => optCost nf T (insert r ((insert u E).erase y)))
                (Finset.mem_insert_self u E)
              rwa [Finset.erase_insert hu] at h2
            omega
          · -- mirror by evicting the same `y0` on the left
            have huy0 : u ≠ y0 := fun hc => hu (hc ▸ hy0E)
            have hvy0 : v ≠ y0 := fun hc => hv (hc ▸ hy0E)
            have hy0mem : y0 ∈ insert u E := Finset.mem_insert_of_mem hy0E
            have h1 : ((insert u E).inf' hneu fun y =>
                optCost nf T (insert r ((insert u E).erase y))) ≤
                optCost nf T (insert r (insert u (E.erase y0))) := by
              have h2 := Finset.inf'_le
                (fun y => optCost nf T (insert r ((insert u E).erase y)))
                hy0mem
              rwa [Finset.erase_insert_of_ne huy0] at h2
            rw [Finset.erase_insert_of_ne hvy0]
            have huE2 : u ∉ insert r (E.erase y0) := by
              rw [Finset.mem_insert]
              push_neg
              exact ⟨fun hc => hru hc.symm,
                fun hc => hu (Finset.mem_of_mem_erase hc)⟩
            have hvE2 : v ∉ insert r (E.erase y0) := by
              rw [Finset.mem_insert]
              push_neg
              exact ⟨fun hc => hrv hc.symm,
                fun hc => hv (Finset.mem_of_mem_erase hc)⟩
            have h2 := Mswap (insert r (E.erase y0)) u v huE2 hvE2
            rw [Finset.Insert.comm u r, Finset.Insert.comm v r] at h2
            omega
    · -- drop
      intro C a ha hcard
      by_cases hrC : r ∈ C
      · rw [optCost_hit nf r T C hrC,
          optCost_hit nf r T _ (Finset.mem_insert_of_mem hrC)]
        exact Mdrop C a ha hcard
      by_cases hra : r = a
      · subst hra
        rw [optCost_miss_notfull nf r T C hrC hcard,
          optCost_hit nf r T _ (Finset.mem_insert_self r C)]
      · have hrC2 : r ∉ insert a C := by
          rw [Finset.mem_insert]
          push_neg
          exact ⟨hra, hrC⟩
        rw [optCost_miss_notfull nf r T C hrC hcard]
        by_cases hcf : (insert a C).card < nf
        · rw [optCost_miss_notfull nf r T _ hrC2 hcf]
          have haC2 : a ∉ insert r C := by
            rw [Finset.mem_insert]
            push_neg
            exact ⟨fun hc => hra hc.symm, ha⟩
          have hcC2 : (insert r C).card < nf := by
            rw [Finset.card_insert_of_not_mem hrC]
            rw [Finset.card_insert_of_not_mem ha] at hcf
            omega
          have h1 := Mdrop (insert r C) a haC2 hcC2
          rw [Finset.Insert.comm a r] at h1
          omega
        · have hne : (insert a C).Nonempty := ⟨a, Finset.mem_insert_self a C⟩
          rw [optCost_miss_full nf r T _ hrC2 hcf hne]
          obtain ⟨y0, hy0, hy0eq⟩ := Finset.exists_mem_eq_inf' hne
            (fun y => optCost nf T (insert r ((insert a C).erase y)))
          rw [hy0eq]
          rcases Finset.mem_insert.mp hy0 with rfl | hy0C
          · rw [Finset.erase_insert ha]
            omega
          · have hay0 : a ≠ y0 := fun hc => ha (hc ▸ hy0C)
            rw [Finset.erase_insert_of_ne hay0]
            have hy02 : y0 ∉ insert r (C.erase y0) := by
              rw [Finset.mem_insert]
              push_neg
              exact ⟨fun hc => hrC (hc ▸ hy0C), Finset.not_mem_erase y0 C⟩
            have ha2 : a ∉ insert r (C.erase y0) := by
              rw [Finset.mem_insert]
              push_neg
              exact ⟨fun hc => hra hc.symm,
                fun hc => ha (Finset.mem_of_mem_erase hc)⟩
            have h1 := Mswap (insert r (C.erase y0)) y0 a hy02 ha2
            rw [Finset.Insert.comm y0 r, Finset.Insert.comm a r,
              Finset.insert_erase hy0C] at h1
            omega

/-- Index of the first occurrence of `p` in a reference list, if any. -/
def firstOcc (p : PageID) : List PageID → Option Nat
  | [] => none
  | q :: T => if q = p then some 0 else (firstOcc p T).map (· + 1)

/-- `b` is requested no later than `a` (a never-requested `a` counts as
requested infinitely late). -/
def reqBefore (b a : PageID) (T : List PageID) : Prop :=
  match firstOcc a T, firstOcc b T with
  | none, _ => True
  | some ja, some jb => jb ≤ ja
  | some _, none => False

theorem reqBefore_cons (a b x : PageID) (T : List PageID)
    (hxa : ¬(x = a)) (hxb : ¬(x = b)) :
    reqBefore b a (x :: T) ↔ reqBefore b a T := by
  cases hA : firstOcc a T <;> cases hB : firstOcc b T <;>
    simp [reqBefore, firstOcc, hxa, hxb, hA, hB]

theorem not_reqBefore_cons_self (a b : PageID) (T : List PageID)
    (hab : ¬(a = b)) : ¬ reqBefore b a (a :: T) := by
  intro h
  cases hB : firstOcc b T <;>
    simp [reqBefore, firstOcc, hab, hB] at h

/-- Belady's exchange lemma: with `b` requested no later than `a`,
keeping `b` (evicting `a`) is at least as good as keeping `a`. -/
theorem optCost_farthest (nf : Nat) :
    ∀ (n : Nat) (T : List PageID), T.length ≤ n →
      ∀ (D : Finset PageID) (a b : PageID), ¬(a = b) → a ∉ D → b ∉ D →
        reqBefore b a T →
        optCost nf T (insert b D) ≤ optCost nf T (insert a D)
  | _, [], _ => by
    intro D a b _ _ _ _
    simp [optCost]
  | 0, r :: T, hT => by simp at hT
  | n + 1, r :: T, hT => by
    intro D a b hab ha hb hP
    have hT' : T.length ≤ n := by
      simp only [List.length_cons] at hT
      omega
    obtain ⟨Mswap, Mdrop⟩ := optCost_swap_drop nf n T hT'
    by_cases hrD : r ∈ D
    · -- hit on both caches
      have hra : ¬(r = a) := fun hc => ha (hc ▸ hrD)
      have hrb : ¬(r = b) := fun hc => hb (hc ▸ hrD)
      rw [optCost_hit nf r T _ (Finset.mem_insert_of_mem hrD),
        optCost_hit nf r T _ (Finset.mem_insert_of_mem hrD)]
      exact optCost_farthest nf n T hT' D a b hab ha hb
        ((reqBefore_cons a b r T hra hrb).mp hP)
    by_cases hrb : r = b
    · -- the request is `b`: only the left cache hits
      subst hrb
      rw [optCost_hit nf r T _ (Finset.mem_insert_self r D)]
      have hrA : r ∉ insert a D := by
        rw [Finset.mem_insert]
        push_neg
        exact ⟨fun hc => hab hc.symm, hrD⟩
      by_cases hcf : (insert a D).card < nf
      · rw [optCost_miss_notfull nf r T _ hrA hcf]
        have haB : a ∉ insert r D := by
          rw [Finset.mem_insert]
          push_neg
          exact ⟨hab, ha⟩
        have hcB : (insert r D).card < nf := by
          rw [Finset.card_insert_of_not_mem hrD]
          rw [Finset.card_insert_of_not_mem ha] at hcf
          omega
        have h1 := Mdrop (insert r D) a haB hcB
        rw [Finset.Insert.comm a r] at h1
        omega
      · have hne : (insert a D).Nonempty := ⟨a, Finset.mem_insert_self a D⟩
        rw [optCost_miss_full nf r T _ hrA hcf hne]
        obtain ⟨y0, hy0, hy0eq⟩ := Finset.exists_mem_eq_inf' hne
          (fun y => optCost nf T (insert r ((insert a D).erase y)))
        rw [hy0eq]
        rcases Finset.mem_insert.mp hy0 with rfl | hy0D
        · rw [Finset.erase_insert ha]
          omega
        · have hay0 : a ≠ y0 := fun hc => ha (hc ▸ hy0D)
          rw [Finset.erase_insert_of_ne hay0]
          have hy0B : y0 ∉ insert r (D.erase y0) := by
            rw [Finset.mem_insert]
            push_neg
            exact ⟨fun hc => hrD (hc ▸ hy0D), Finset.not_mem_erase y0 D⟩
          have haB : a ∉ insert r (D.erase y0) := by
            rw [Finset.mem_insert]
            push_neg
            exact ⟨hab, fun hc => ha (Finset.mem_of_mem_erase hc)⟩
          have h1 := Mswap (insert r (D.erase y0)) y0 a hy0B haB
          rw [Finset.Insert.comm y0 r, Finset.Insert.comm a r,
            Finset.insert_erase hy0D] at h1
          omega
    by_cases hra : r = a
    · -- impossible: `a` would be requested strictly before `b`
      exfalso
      subst hra
      exact not_reqBefore_cons_self r b T hab hP
    · -- the request is outside `D ∪ {a, b}`: both caches miss
      have hP' : reqBefore b a T := (reqBefore_cons a b r T hra hrb).mp hP
      have hrA : r ∉ insert a D := by
        rw [Finset.mem_insert]
        push_neg
        exact ⟨hra, hrD⟩
      have hrB : r ∉ insert b D := by
        rw [Finset.mem_insert]
        push_neg
        exact ⟨hrb, hrD⟩
      by_cases hcf : (insert a D).card < nf
      · have hcf2 : (insert b D).card < nf := by
          rw [Finset.card_insert_of_not_mem hb]
          rw [Finset.card_insert_of_not_mem ha] at hcf
          omega
        rw [optCost_miss_notfull nf r T _ hrA hcf,
          optCost_miss_notfull nf r T _ hrB hcf2]
        have haD' : a ∉ insert r D := by
          rw [Finset.mem_insert]
          push_neg
          exact ⟨fun hc => hra hc.symm, ha⟩
        have hbD' : b ∉ insert r D := by
          rw [Finset.mem_insert]
          push_neg
          exact ⟨fun hc => hrb hc.symm, hb⟩
        have h1 := optCost_farthest nf n T hT' (insert r D) a b hab
          haD' hbD' hP'
        rw [Finset.Insert.comm b r, Finset.Insert.comm a r] at h1
        omega
      · have hcf2 : ¬((insert b D).card < nf) := by
          rw [Finset.card_insert_of_not_mem hb]
          rw [Finset.card_insert_of_not_mem ha] at hcf
          omega
        have hneA : (insert a D).Nonempty := ⟨a, Finset.mem_insert_self a D⟩
        have hneB : (insert b D).Nonempty := ⟨b, Finset.mem_insert_self b D⟩
        rw [optCost_miss_full nf r T _ hrA hcf hneA,
          optCost_miss_full nf r T _ hrB hcf2 hneB]
        obtain ⟨y0, hy0, hy0eq⟩ := Finset.exists_mem_eq_inf' hneA
          (fun y => optCost nf T (insert r ((insert a D).erase y)))
        rw [hy0eq]
        rcases Finset.mem_insert.mp hy0 with rfl | hy0D
        · -- mirror by evicting `b` on the left
          rw [Finset.erase_insert ha]
          have h1 : ((insert b D).inf' hneB fun y =>
              optCost nf T (insert r ((insert b D).erase y))) ≤
              optCost nf T (insert r D) := by
            have h2 := Finset.inf'_le
              (fun y => optCost nf T (insert r ((insert b D).erase y)))
              (Finset.mem_insert_self b D)
            rwa [Finset.erase_insert hb] at h2
          omega
        · -- mirror by evicting the same `y0` on the left
          have hay0 : a ≠ y0 := fun hc => ha (hc ▸ hy0D)
          have hby0 : b ≠ y0 := fun hc => hb (hc ▸ hy0D)
          rw [Finset.erase_insert_of_ne hay0]
          have hy0B : y0 ∈ insert b D := Finset.mem_insert_of_mem hy0D
          have h1 : ((insert b D).inf' hneB fun y =>
              optCost nf T (insert r ((insert b D).erase y))) ≤
              optCost nf T (insert r (insert b (D.erase y0))) := by
            have h2 := Finset.inf'_le
              (fun y => optCost nf T (insert r ((insert b D).erase y)))
              hy0B
            rwa [Finset.erase_insert_of_ne hby0] at h2
          have haD2 : a ∉ insert r (D.erase y0) := by
            rw [Finset.mem_insert]
            push_neg
            exact ⟨fun hc => hra hc.symm,
              fun hc => ha (Finset.mem_of_mem_erase hc)⟩
          have hbD2 : b ∉ insert r (D.erase y0) := by
            rw [Finset.mem_insert]
            push_neg
            exact ⟨fun hc => hrb hc.symm,
              fun hc => hb (Finset.mem_of_mem_erase hc)⟩
          have h2 := optCost_farthest nf n T hT' (insert r (D.erase y0))
            a b hab haD2 hbD2 hP'
          rw [Finset.Insert.comm b r, Finset.Insert.comm a r] at h2
          omega

/-! ## FIFO cannot beat the optimal cost -/

theorem toFinset_snoc (l : List PageID) (a : PageID) :
    (l ++ [a]).toFinset = insert a l.toFinset := by
  ext x
  simp [or_comm]

/-- One FIFO step never drops below the best possible cost. -/
theorem optCost_le_fifoStep (nfI : Int) (hn : 1 ≤ nfI) (d : Bool)
    (i : Nat) (T : List PageID) (st : FifoState) (r : PageID)
    (seen : List PageID) (hinv : FifoInv nfI seen st) :
    ∀ st1 evs1, fifoStep nfI d i st r = some (st1, evs1) →
      optCost nfI.toNat (r :: T) st.frames.toFinset + st.pageFaults ≤
        optCost nfI.toNat T st1.frames.toFinset + st1.pageFaults := by
  obtain ⟨fr, fc, lc⟩ := st
  obtain ⟨_, _, _, _, h5, _, h7⟩ := hinv
  dsimp only at h5 h7 ⊢
  intro st1 evs1 hstep
  by_cases hmem : r ∈ fr
  · have hmem' : r ∈ fr.toFinset := List.mem_toFinset.mpr hmem
    rw [optCost_hit _ r T _ hmem']
    have hst1 : st1 = ⟨fr, fc, lc⟩ := by
      simp [fifoStep, List.elem_eq_mem, hmem] at hstep
      exact hstep.1.symm
    rw [hst1]
  · have hmem' : r ∉ fr.toFinset := fun hc => hmem (List.mem_toFinset.mp hc)
    by_cases hfull : ((fr.length : Int) = nfI)
    · -- full: FIFO evicts the front page
      cases fr with
      | nil =>
        exfalso
        simp at hfull
        omega
      | cons e rest =>
        have hfull2 : (rest.length : Int) + 1 = nfI := by
          simp only [List.length_cons] at hfull
          push_cast at hfull
          exact hfull
        have hst1 : st1 = ⟨rest ++ [r], fc + 1, bumpLoad lc r⟩ := by
          simp [fifoStep, List.elem_eq_mem, hmem, hfull2] at hstep
          exact hstep.1.symm
        have hcard : (e :: rest).toFinset.card = nfI.toNat := by
          rw [List.toFinset_card_of_nodup h5]
          simp only [List.length_cons]
          omega
        have hnotfull : ¬((e :: rest).toFinset.card < nfI.toNat) := by
          omega
        have hne : (e :: rest).toFinset.Nonempty :=
          ⟨e, by simp⟩
        rw [optCost_miss_full _ r T _ hmem' hnotfull hne]
        have heF : e ∈ (e :: rest).toFinset := by simp
        have hval := Finset.inf'_le
          (fun y => optCost nfI.toNat T (insert r ((e :: rest).toFinset.erase y)))
          heF
        have herase : (e :: rest).toFinset.erase e = rest.toFinset := by
          have : (e :: rest).toFinset = insert e rest.toFinset := by simp
          rw [this, Finset.erase_insert]
          exact fun hc => (List.nodup_cons.mp h5).1 (List.mem_toFinset.mp hc)
        rw [herase] at hval
        have hnewF : (rest ++ [r]).toFinset = insert r rest.toFinset :=
          toFinset_snoc rest r
        rw [hst1]
        dsimp only
        rw [hnewF]
        omega
    · -- not full: FIFO appends
      have hcard : fr.toFinset.card < nfI.toNat := by
        rw [List.toFinset_card_of_nodup h5]
        omega
      have hst1 : st1 = ⟨fr ++ [r], fc + 1, bumpLoad lc r⟩ := by
        simp [fifoStep, List.elem_eq_mem, hmem, hfull] at hstep
        exact hstep.1.symm
      rw [optCost_miss_notfull _ r T _ hmem' hcard]
      rw [hst1]
      dsimp only
      rw [toFinset_snoc fr r]
      omega

/-- The best possible fault count is a lower bound on a FIFO run. -/
theorem optCost_le_fifoRun (nfI : Int) (hn : 1 ≤ nfI) (d : Bool) :
    ∀ (T : List PageID) (i : Nat) (st : FifoState) (seen : List PageID),
      FifoInv nfI seen st →
      ∀ st' evs, fifoRun nfI d i st T = some (st', evs) →
        optCost nfI.toNat T st.frames.toFinset + st.pageFaults ≤
          st'.pageFaults
  | [], i, st, seen, hinv, st', evs, hrun => by
    have hst' : st' = st := by
      simp [fifoRun] at hrun
      exact hrun.1.symm
    subst hst'
    simp [optCost]
  | r :: T, i, st, seen, hinv, st', evs, hrun => by
    obtain ⟨st1, evs1, hstep, hinv1, _⟩ :=
      fifoStep_inv nfI hn d i st r seen hinv
    have hrun' : ∃ evs2, fifoRun nfI d (i + 1) st1 T = some (st', evs2) := by
      rw [fifoRun, hstep] at hrun
      dsimp only at hrun
      cases hR : fifoRun nfI d (i + 1) st1 T with
      | none =>
        rw [hR] at hrun
        simp at hrun
      | some p =>
        obtain ⟨p1, p2⟩ := p
        rw [hR] at hrun
        simp only [Option.some.injEq, Prod.mk.injEq] at hrun
        exact ⟨p2, by rw [← hrun.1]⟩
    obtain ⟨evs2, hrun2⟩ := hrun'
    have h1 := optCost_le_fifoStep nfI hn d i T st r seen hinv st1 evs1 hstep
    have h2 := optCost_le_fifoRun nfI hn d T (i + 1) st1 (seen ++ [r])
      hinv1 st' evs2 hrun2
    omega

theorem optCost_le_fifoAlgorithm (trace : List PageID) (nfI : Int)
    (hn : 1 ≤ nfI) (d : Bool) :
    ∃ r evs, fifoAlgorithm trace nfI d = some (r, evs) ∧
      optCost nfI.toNat trace ∅ ≤ r.pageFaults := by
  obtain ⟨st', evs, hrun, hinv, _⟩ :=
    fifoRun_inv nfI hn d trace 0 fifoInit [] (fifoInv_init nfI hn)
  refine ⟨⟨st'.pageFaults, st'.loadCounts⟩, evs,
    by simp [fifoAlgorithm, hrun], ?_⟩
  have h1 := optCost_le_fifoRun nfI hn d trace 0 fifoInit []
    (fifoInv_init nfI hn) st' evs hrun
  simpa [fifoInit] using h1

/-! ## The implemented optimal simulator attains the optimal cost -/

theorem mem_getElem? {α : Type} (l : List α) (a : α) (h : a ∈ l) :
    ∃ n : Nat, l[n]? = some a := by
  obtain ⟨n, hn⟩ := List.mem_iff_get.mp h
  refine ⟨n, ?_⟩
  rw [List.getElem?_eq_getElem n.isLt]
  simp only [List.get_eq_getElem] at hn
  simp [hn]

theorem occIndicesFrom_eq_nil_of_not_mem (p : PageID) :
    ∀ (l : List PageID) (i : Nat), p ∉ l → occIndicesFrom p i l = []
  | [], _, _ => rfl
  | q :: rest, i, h => by
    have hq : ¬(q = p) := fun hc => h (by simp [hc])
    simp only [occIndicesFrom, hq, if_false]
    exact occIndicesFrom_eq_nil_of_not_mem p rest (i + 1)
      (fun hc => h (by simp [hc]))

/-- Reading the preprocessed map gives exactly the occurrence-index
list of the page. -/
theorem posGet_buildPositions (trace : List PageID) (q : PageID) :
    posGet (buildPositions trace) q = occIndicesFrom q 0 trace := by
  unfold posGet
  have h := find?_buildPositionsFrom q trace 0 []
  simp only [List.find?] at h
  rw [show buildPositionsFrom 0 [] trace = buildPositions trace from rfl]
    at h
  by_cases hq : q ∈ trace
  · rw [h]
    simp [hq]
  · rw [h]
    simp [hq, occIndicesFrom_eq_nil_of_not_mem q trace 0 hq]

theorem countLe_le_length (i : Nat) : ∀ l : List Nat, countLe i l ≤ l.length
  | [] => le_refl 0
  | x :: rest => by
    by_cases hx : x ≤ i
    · simp only [countLe, hx, if_true, List.length_cons]
      have := countLe_le_length i rest
      omega
    · simp only [countLe, hx, if_false, List.length_cons]
      omega

theorem countLe_prefix (i : Nat) :
    ∀ (l : List Nat) (idx e : Nat), idx < countLe i l → l[idx]? = some e → e ≤ i
  | [], idx, e, hidx, _ => by simp [countLe] at hidx
  | x :: rest, idx, e, hidx, hget => by
    by_cases hx : x ≤ i
    · cases idx with
      | zero =>
        have : x = e := by simpa using hget
        omega
      | succ idx' =>
        simp only [countLe, hx, if_true] at hidx
        exact countLe_prefix i rest idx' e (by omega) (by simpa using hget)
    · simp [countLe, hx] at hidx
  
theorem countLe_next (i : Nat) :
    ∀ (l : List Nat) (e : Nat), l[countLe i l]? = some e → i < e
  | [], e, h => by simp at h
  | x :: rest, e, h => by
    by_cases hx : x ≤ i
    · simp only [countLe, hx, if_true] at h
      exact countLe_next i rest e (by simpa using h)
    · simp only [countLe, hx, if_false] at h
      have : x = e := by simpa using h
      omega

theorem advanceCursor_ge (ps : List Nat) (i c : Nat) :
    c ≤ advanceCursor ps i c := Nat.le_add_right c _

theorem advanceCursor_le_length (ps : List Nat) (i c : Nat)
    (hc : c ≤ ps.length) : advanceCursor ps i c ≤ ps.length := by
  unfold advanceCursor
  have h1 := countLe_le_length i (ps.drop c)
  rw [List.length_drop] at h1
  omega

theorem advanceCursor_prefix (ps : List Nat) (i c : Nat)
    (hseen : ∀ idx e, idx < c → ps[idx]? = some e → e ≤ i) :
    ∀ idx e, idx < advanceCursor ps i c → ps[idx]? = some e → e ≤ i := by
  intro idx e hidx hget
  by_cases hc : idx < c
  · exact hseen idx e hc hget
  · unfold advanceCursor at hidx
    have hm : idx - c < countLe i (ps.drop c) := by omega
    have hget2 : (ps.drop c)[idx - c]? = some e := by
      rw [List.getElem?_drop]
      have : c + (idx - c) = idx := by omega
      rw [this]
      exact hget
    exact countLe_prefix i (ps.drop c) (idx - c) e hm hget2

theorem advanceCursor_next (ps : List Nat) (i c : Nat) (e : Nat)
    (h : ps[advanceCursor ps i c]? = some e) : i < e := by
  unfold advanceCursor at h
  rw [← List.getElem?_drop] at h
  exact countLe_next i (ps.drop c) e h

/-- When the advanced cursor runs off the end of the position list and
every entry skipped so far is `≤ i`, the page has no occurrence after
time `i` in the tr. -/
theorem nextPosOf_neg_one_no_future (tr : List PageID)
    (cur : PageID → Nat) (i : Nat) (q : PageID)
    (hc : ∀ idx e, idx < cur q →
      (posGet (buildPositions tr) q)[idx]? = some e → e ≤ i)
    (h : nextPosOf (buildPositions tr) cur i q = -1) :
    ∀ j, i < j → tr[j]? ≠ some q := by
  intro j hij hj
  have hocc : posGet (buildPositions tr) q = occIndicesFrom q 0 tr :=
    posGet_buildPositions tr q
  have hjmem : j ∈ posGet (buildPositions tr) q := by
    rw [hocc, mem_occIndicesFrom]
    refine ⟨Nat.zero_le j, ?_⟩
    rw [Nat.sub_zero, List.get?_eq_getElem?]
    exact hj
  obtain ⟨idx, hidx⟩ := mem_getElem? _ j hjmem
  have hnone : (posGet (buildPositions tr) q)[advanceCursor
      (posGet (buildPositions tr) q) i (cur q)]? = none := by
    simp only [nextPosOf] at h
    cases hg : (posGet (buildPositions tr) q)[advanceCursor
        (posGet (buildPositions tr) q) i (cur q)]? with
    | none => rfl
    | some v =>
      rw [hg] at h
      exfalso
      have : (v : Int) = -1 := h
      omega
  have hlen := List.getElem?_eq_none_iff.mp hnone
  have hidxlt : idx < (posGet (buildPositions tr) q).length := by
    obtain ⟨hh, _⟩ := List.getElem?_eq_some.mp hidx
    exact hh
  have hle := advanceCursor_prefix (posGet (buildPositions tr) q) i
    (cur q) hc idx j (by omega) hidx
  omega

/-- When the scan computes a finite `nextPos`, it is the first
occurrence of the page strictly after time `i`. -/
theorem nextPosOf_coe_first_future (tr : List PageID)
    (cur : PageID → Nat) (i : Nat) (q : PageID) (j : Nat)
    (hc : ∀ idx e, idx < cur q →
      (posGet (buildPositions tr) q)[idx]? = some e → e ≤ i)
    (h : nextPosOf (buildPositions tr) cur i q = (j : Int)) :
    i < j ∧ tr[j]? = some q ∧
      ∀ j', i < j' → j' < j → tr[j']? ≠ some q := by
  have hocc : posGet (buildPositions tr) q = occIndicesFrom q 0 tr :=
    posGet_buildPositions tr q
  have hsome : (posGet (buildPositions tr) q)[advanceCursor
      (posGet (buildPositions tr) q) i (cur q)]? = some j := by
    simp only [nextPosOf] at h
    cases hg : (posGet (buildPositions tr) q)[advanceCursor
        (posGet (buildPositions tr) q) i (cur q)]? with
    | none =>
      rw [hg] at h
      exfalso
      have : (-1 : Int) = (j : Int) := h
      omega
    | some v =>
      rw [hg] at h
      have hvj : (v : Int) = (j : Int) := by simpa using h
      have : v = j := by exact_mod_cast hvj
      rw [this]
  have hij : i < j := advanceCursor_next _ i (cur q) j hsome
  have htrj : tr[j]? = some q := by
    have hjmem : j ∈ posGet (buildPositions tr) q :=
      List.getElem?_mem hsome
    rw [hocc, mem_occIndicesFrom] at hjmem
    obtain ⟨_, h2⟩ := hjmem
    rw [Nat.sub_zero, List.get?_eq_getElem?] at h2
    exact h2
  refine ⟨hij, htrj, ?_⟩
  intro j' h1 h2 hj'
  have hj'mem : j' ∈ posGet (buildPositions tr) q := by
    rw [hocc, mem_occIndicesFrom]
    refine ⟨Nat.zero_le j', ?_⟩
    rw [Nat.sub_zero, List.get?_eq_getElem?]
    exact hj'
  obtain ⟨idx, hidx⟩ := mem_getElem? _ j' hj'mem
  have hidxlt : idx < (posGet (buildPositions tr) q).length := by
    obtain ⟨hh, _⟩ := List.getElem?_eq_some.mp hidx
    exact hh
  have hadvlt : advanceCursor (posGet (buildPositions tr) q) i (cur q) <
      (posGet (buildPositions tr) q).length := by
    obtain ⟨hh, _⟩ := List.getElem?_eq_some.mp hsome
    exact hh
  rcases Nat.lt_trichotomy idx
      (advanceCursor (posGet (buildPositions tr) q) i (cur q)) with
    hcmp | hcmp | hcmp
  · have hle := advanceCursor_prefix (posGet (buildPositions tr) q) i
      (cur q) hc idx j' hcmp hidx
    omega
  · rw [hcmp, hsome] at hidx
    have : j = j' := by simpa using hidx
    omega
  · have hpw : (posGet (buildPositions tr) q).Pairwise (· < ·) := by
      rw [hocc]
      exact occIndicesFrom_pairwise q tr 0
    have hlt := List.pairwise_iff_getElem.mp hpw
      (advanceCursor (posGet (buildPositions tr) q) i (cur q)) idx
      hadvlt hidxlt hcmp
    have he1 : (posGet (buildPositions tr) q)[advanceCursor
        (posGet (buildPositions tr) q) i (cur q)] = j := by
      obtain ⟨_, hh2⟩ := List.getElem?_eq_some.mp hsome
      exact hh2
    have he2 : (posGet (buildPositions tr) q)[idx] = j' := by
      obtain ⟨_, hh2⟩ := List.getElem?_eq_some.mp hidx
      exact hh2
    rw [he1, he2] at hlt
    omega

theorem firstOcc_eq_none (p : PageID) :
    ∀ l : List PageID, p ∉ l → firstOcc p l = none
  | [], _ => rfl
  | q :: l, h => by
    have hq : ¬(q = p) := fun hc => h (by simp [hc])
    simp only [firstOcc, hq, if_false]
    rw [firstOcc_eq_none p l (fun hc => h (by simp [hc]))]
    rfl

theorem firstOcc_eq_some_intro (p : PageID) :
    ∀ (l : List PageID) (m : Nat), l[m]? = some p →
      (∀ m', m' < m → l[m']? ≠ some p) → firstOcc p l = some m
  | [], m, h, _ => by simp at h
  | q :: l, 0, h, _ => by
    have hq : q = p := by simpa using h
    simp [firstOcc, hq]
  | q :: l, m + 1, h, hmin => by
    have hq : ¬(q = p) := by
      intro hc
      exact hmin 0 (by omega) (by simp [hc])
    simp only [firstOcc, hq, if_false]
    rw [firstOcc_eq_some_intro p l m (by simpa using h)
      (fun m' hm' hc => hmin (m' + 1) (by omega) (by simpa using hc))]
    rfl

theorem reqBefore_of_none (b a : PageID) (T : List PageID)
    (h : firstOcc a T = none) : reqBefore b a T := by
  cases hB : firstOcc b T <;> simp [reqBefore, h, hB]

theorem reqBefore_of_le (b a : PageID) (T : List PageID) (ja jb : Nat)
    (ha : firstOcc a T = some ja) (hb : firstOcc b T = some jb)
    (hle : jb ≤ ja) : reqBefore b a T := by
  simp [reqBefore, ha, hb, hle]

theorem firstOcc_drop_of_no_future (tr T : List PageID) (i : Nat)
    (q : PageID) (hT : tr.drop (i + 1) = T)
    (h : ∀ j, i < j → tr[j]? ≠ some q) : firstOcc q T = none := by
  apply firstOcc_eq_none
  intro hqmem
  obtain ⟨n, hn⟩ := mem_getElem? T q hqmem
  rw [← hT, List.getElem?_drop] at hn
  exact h (i + 1 + n) (by omega) hn

theorem firstOcc_drop_of_first (tr T : List PageID) (i j : Nat)
    (q : PageID) (hT : tr.drop (i + 1) = T) (hij : i < j)
    (hj : tr[j]? = some q)
    (hmin : ∀ j', i < j' → j' < j → tr[j']? ≠ some q) :
    firstOcc q T = some (j - (i + 1)) := by
  apply firstOcc_eq_some_intro
  · rw [← hT, List.getElem?_drop]
    have he : i + 1 + (j - (i + 1)) = j := by omega
    rw [he]
    exact hj
  · intro m' hm' hc
    rw [← hT, List.getElem?_drop] at hc
    exact hmin (i + 1 + m') (by omega) (by omega) hc

/-- The victim chosen by the full scan either is never used again, or
every resident page has a finite next use and the victim's next use is
the latest. -/
theorem victim_farthest (pp : List (PageID × List Nat)) (i : Nat)
    (fr : List PageID) (cur : PageID → Nat) (hnd : fr.Nodup)
    (hne : fr ≠ []) (victim : PageID)
    (hv : fr[(findVictim pp i cur fr 0 (-1) (-1)).1.toNat]? = some victim) :
    nextPosOf pp cur i victim = -1 ∨
      (∀ y ∈ fr, nextPosOf pp cur i y ≠ -1 ∧
        nextPosOf pp cur i y ≤ nextPosOf pp cur i victim) := by
  have hsel := findVictim_eq_selectVictimIdx pp i fr cur 0 (-1) (-1) hnd
  by_cases hA : ∃ q ∈ fr, nextPosOf pp cur i q = -1
  case pos =>
    left
    have hmex : ∃ m : Nat,
        (fr.map (nextPosOf pp cur i))[m]? = some (-1) := by
      obtain ⟨q0, hq0mem, hq0⟩ := hA
      obtain ⟨n, hn⟩ := List.mem_iff_get.mp hq0mem
      refine ⟨n, ?_⟩
      simp only [List.getElem?_map]
      rw [List.getElem?_eq_getElem n.isLt]
      simp only [List.get_eq_getElem] at hn
      simp [hn, hq0]
    obtain ⟨m0, hm0, hmin⟩ : ∃ m0,
        (fr.map (nextPosOf pp cur i))[m0]? = some (-1) ∧
        ∀ m' < m0, ¬((fr.map (nextPosOf pp cur i))[m']? = some (-1)) := by
      classical
      exact ⟨Nat.find hmex, Nat.find_spec hmex,
        fun m' hm' => Nat.find_min hmex hm'⟩
    have hselA : selectVictimIdx (fr.map (nextPosOf pp cur i))
        0 (-1) (-1) = ((0 + m0 : Nat) : Int) := by
      apply selectVictimIdx_first_neg_one _ m0 0 (-1) (-1) hm0
      intro m' x hm' hx hxeq
      exact hmin m' hm' (hxeq ▸ hx)
    have hJnat : (findVictim pp i cur fr 0 (-1) (-1)).1.toNat = m0 := by
      rw [hsel, hselA]
      norm_num
    rw [hJnat] at hv
    have h1 := hm0
    simp only [List.getElem?_map] at h1
    rw [hv] at h1
    simpa using h1
  case neg =>
    right
    push_neg at hA
    have hpos : ∀ x ∈ fr.map (nextPosOf pp cur i), 0 ≤ x := by
      intro x hx
      obtain ⟨q, hq, rfl⟩ := List.mem_map.mp hx
      rcases nextPosOf_shape pp cur i q with h0 | h0
      · exact absurd h0 (hA q hq)
      · exact h0
    rcases selectVictimIdx_max (fr.map (nextPosOf pp cur i))
        0 (-1) (-1) hpos with
      ⟨hall, _⟩ | ⟨m, M, hm, _, _, hallle, heq'⟩
    · exfalso
      obtain ⟨q0, hq0⟩ := List.exists_mem_of_ne_nil fr hne
      have h1 : nextPosOf pp cur i q0 ∈ fr.map (nextPosOf pp cur i) :=
        List.mem_map.mpr ⟨q0, hq0, rfl⟩
      have h2 := hall _ h1
      have h3 := hpos _ h1
      omega
    · have hJnat : (findVictim pp i cur fr 0 (-1) (-1)).1.toNat = m := by
        rw [hsel, heq']
        norm_num
      rw [hJnat] at hv
      have hnp_vic : nextPosOf pp cur i victim = M := by
        have h1 := hm
        simp only [List.getElem?_map] at h1
        rw [hv] at h1
        simpa using h1
      intro y hy
      refine ⟨hA y hy, ?_⟩
      obtain ⟨n, hn⟩ := List.mem_iff_get.mp hy
      have hmm : (fr.map (nextPosOf pp cur i))[(n : Nat)]? =
          some (nextPosOf pp cur i y) := by
        simp only [List.getElem?_map]
        rw [List.getElem?_eq_getElem n.isLt]
        simp only [List.get_eq_getElem] at hn
        simp [hn]
      have hle := hallle n _ hmm
      rw [hnp_vic]
      exact hle

/-- The cursor map returned by the scan still only skips positions
`≤ i`. -/
theorem findVictim_snd_curok (pp : List (PageID × List Nat)) (i : Nat) :
    ∀ (frames : List PageID) (cursors : PageID → Nat) (k : Nat)
      (far v : Int),
      (∀ q idx e, idx < cursors q → (posGet pp q)[idx]? = some e → e ≤ i) →
      ∀ q idx e, idx < (findVictim pp i cursors frames k far v).2 q →
        (posGet pp q)[idx]? = some e → e ≤ i
  | [], cursors, k, far, v, h => h
  | framePage :: rest, cursors, k, far, v, h => by
    have h' : ∀ q idx e,
        idx < (fun q => if q = framePage then
          advanceCursor (posGet pp framePage) i (cursors framePage)
        else cursors q) q →
        (posGet pp q)[idx]? = some e → e ≤ i := by
      intro q idx e hidx hget
      dsimp only at hidx
      by_cases hq : q = framePage
      · subst hq
        rw [if_pos rfl] at hidx
        exact advanceCursor_prefix (posGet pp q) i (cursors q)
          (h q) idx e hidx hget
      · rw [if_neg hq] at hidx
        exact h q idx e hidx hget
    cases hg : (posGet pp framePage)[advanceCursor
        (posGet pp framePage) i (cursors framePage)]? with
    | none =>
      simp only [findVictim, hg]
      simpa using h'
    | some x =>
      simp only [findVictim, hg]
      rw [if_neg (by omega : ¬((x : Int) = -1))]
      by_cases hf : far < (x : Int)
      · rw [if_pos hf]
        exact findVictim_snd_curok pp i rest _ (k + 1) (x : Int) (k : Int) h'
      · rw [if_neg hf]
        exact findVictim_snd_curok pp i rest _ (k + 1) far v h'

/-- Replacing a slot of a duplicate-free list replaces a single element
of its finset. -/
theorem toFinset_set (victim p : PageID) :
    ∀ (l : List PageID) (J : Nat), l.Nodup → l[J]? = some victim →
      (l.set J p).toFinset = insert p (l.toFinset.erase victim)
  | [], J, _, hJ => by simp at hJ
  | x :: rest, 0, hnd, hJ => by
    have hx : x = victim := by simpa using hJ
    subst hx
    have hxr : x ∉ rest := (List.nodup_cons.mp hnd).1
    have h1 : (x :: rest).toFinset = insert x rest.toFinset := by simp
    rw [List.set_cons_zero, h1, Finset.erase_insert
      (fun hc => hxr (List.mem_toFinset.mp hc))]
    simp
  | x :: rest, J + 1, hnd, hJ => by
    have hJ' : rest[J]? = some victim := by simpa using hJ
    have hvr : victim ∈ rest := List.getElem?_mem hJ'
    have hxr : x ∉ rest := (List.nodup_cons.mp hnd).1
    have hxv : x ≠ victim := fun hc => hxr (hc ▸ hvr)
    have hih := toFinset_set victim p rest J (List.nodup_cons.mp hnd).2 hJ'
    rw [List.set_cons_succ]
    have h1 : (x :: rest.set J p).toFinset =
        insert x (rest.set J p).toFinset := by simp
    have h2 : (x :: rest).toFinset = insert x rest.toFinset := by simp
    rw [h1, hih, h2, Finset.erase_insert_of_ne hxv, Finset.Insert.comm]

/-- One step of the optimal simulator keeps every cursor pointing past
positions `≤ i` only. -/
theorem optimalStep_curok (pp : List (PageID × List Nat)) (nfI : Int)
    (hn : 1 ≤ nfI) (d : Bool) (i : Nat) (st : OptState) (r : PageID)
    (hc : ∀ q idx e, idx < st.nextUseCursor q →
      (posGet pp q)[idx]? = some e → e < i)
    (st1 : OptState) (evs1 : List DidacticEvent)
    (hstep : optimalStep pp nfI d i st r = some (st1, evs1)) :
    ∀ q idx e, idx < st1.nextUseCursor q →
      (posGet pp q)[idx]? = some e → e < i + 1 := by
  obtain ⟨fr, cur, fc, lc⟩ := st
  dsimp only at hc ⊢
  by_cases hmem : r ∈ fr
  · have hst1 : st1 = ⟨fr, cur, fc, lc⟩ := by
      simp [optimalStep, List.elem_eq_mem, hmem] at hstep
      exact hstep.1.symm
    intro q idx e h1 h2
    rw [hst1] at h1
    dsimp only at h1
    have := hc q idx e h1 h2
    omega
  · by_cases hlt : ((fr.length : Int) < nfI)
    · have hst1 : st1 = ⟨fr ++ [r], cur, fc + 1, bumpLoad lc r⟩ := by
        simp [optimalStep, List.elem_eq_mem, hmem, hlt] at hstep
        exact hstep.1.symm
      intro q idx e h1 h2
      rw [hst1] at h1
      dsimp only at h1
      have := hc q idx e h1 h2
      omega
    · have hne : fr ≠ [] := by
        intro h0
        rw [h0] at hlt
        simp at hlt
        omega
      obtain ⟨victim, evs, _, heq⟩ :=
        optimalStep_full_eq pp nfI d i fr cur fc lc r hmem hlt hne
      rw [heq] at hstep
      simp only [Option.some.injEq, Prod.mk.injEq] at hstep
      intro q idx e h1 h2
      rw [← hstep.1] at h1
      dsimp only at h1
      have hres := findVictim_snd_curok pp i fr cur 0 (-1) (-1)
        (fun q' idx' e' hx hy => Nat.le_of_lt (hc q' idx' e' hx hy))
        q idx e h1 h2
      omega

/-- One step of the implemented optimal simulator is at least as good
as the best possible eviction choice, measured by `optCost`. -/
theorem optimalStep_le_optCost (tr : List PageID) (nfI : Int)
    (hn : 1 ≤ nfI) (d : Bool) (i : Nat) (T : List PageID)
    (st : OptState) (r : PageID) (seen : List PageID)
    (htr : tr = seen ++ r :: T) (hi : i = seen.length)
    (hinv : OptInv nfI seen st)
    (hc : ∀ q idx e, idx < st.nextUseCursor q →
      (posGet (buildPositions tr) q)[idx]? = some e → e < i)
    (st1 : OptState) (evs1 : List DidacticEvent)
    (hstep : optimalStep (buildPositions tr) nfI d i st r =
      some (st1, evs1)) :
    optCost nfI.toNat T st1.frames.toFinset + st1.pageFaults ≤
      optCost nfI.toNat (r :: T) st.frames.toFinset + st.pageFaults := by
  have hT : tr.drop (i + 1) = T := by
    rw [htr, hi]
    have h2 : seen ++ r :: T = (seen ++ [r]) ++ T := by simp
    rw [h2]
    have h3 : seen.length + 1 = (seen ++ [r]).length := by simp
    rw [h3, List.drop_left]
  obtain ⟨fr, cur, fc, lc⟩ := st
  obtain ⟨_, _, _, _, h5, _, h7⟩ := hinv
  dsimp only at h5 h7 hc ⊢
  by_cases hmem : r ∈ fr
  · have hst1 : st1 = ⟨fr, cur, fc, lc⟩ := by
      simp [optimalStep, List.elem_eq_mem, hmem] at hstep
      exact hstep.1.symm
    have hmem' : r ∈ fr.toFinset := List.mem_toFinset.mpr hmem
    rw [optCost_hit _ r T _ hmem', hst1]
  · have hmem' : r ∉ fr.toFinset := fun hcm => hmem (List.mem_toFinset.mp hcm)
    by_cases hlt : ((fr.length : Int) < nfI)
    · have hst1 : st1 = ⟨fr ++ [r], cur, fc + 1, bumpLoad lc r⟩ := by
        simp [optimalStep, List.elem_eq_mem, hmem, hlt] at hstep
        exact hstep.1.symm
      have hcard : fr.toFinset.card < nfI.toNat := by
        rw [List.toFinset_card_of_nodup h5]
        omega
      rw [optCost_miss_notfull _ r T _ hmem' hcard, hst1]
      dsimp only
      rw [toFinset_snoc fr r]
      omega
    · have hne : fr ≠ [] := by
        intro h0
        rw [h0] at hlt
        simp at hlt
        omega
      obtain ⟨victim, evs, hv2, heq⟩ :=
        optimalStep_full_eq (buildPositions tr) nfI d i fr cur fc lc r
          hmem hlt hne
      rw [heq] at hstep
      simp only [Option.some.injEq, Prod.mk.injEq] at hstep
      have hvicfr : victim ∈ fr := List.getElem?_mem hv2
      have hvicF : victim ∈ fr.toFinset := List.mem_toFinset.mpr hvicfr
      have hlen : fr.length = nfI.toNat := by omega
      have hcardF : fr.toFinset.card = nfI.toNat := by
        rw [List.toFinset_card_of_nodup h5, hlen]
      have hnotlt : ¬(fr.toFinset.card < nfI.toNat) := by omega
      have hneF : fr.toFinset.Nonempty := ⟨victim, hvicF⟩
      rw [optCost_miss_full _ r T _ hmem' hnotlt hneF]
      obtain ⟨y0, hy0F, hy0eq⟩ := Finset.exists_mem_eq_inf' hneF
        (fun y => optCost nfI.toNat T (insert r (fr.toFinset.erase y)))
      rw [hy0eq]
      have hfr1 : st1.frames.toFinset =
          insert r (fr.toFinset.erase victim) := by
        rw [← hstep.1]
        dsimp only
        exact toFinset_set victim r fr _ h5 hv2
      have hfc1 : st1.pageFaults = fc + 1 := by
        rw [← hstep.1]
      rw [hfr1, hfc1]
      have hy0fr : y0 ∈ fr := List.mem_toFinset.mp hy0F
      have hkey : optCost nfI.toNat T (insert r (fr.toFinset.erase victim)) ≤
          optCost nfI.toNat T (insert r (fr.toFinset.erase y0)) := by
        by_cases hvy : victim = y0
        · rw [hvy]
        · have hrvic : victim ≠ r := fun hcm => hmem (hcm ▸ hvicfr)
          have hry0 : y0 ≠ r := fun hcm => hmem (hcm ▸ hy0fr)
          have hreq : reqBefore y0 victim T := by
            rcases victim_farthest (buildPositions tr) i fr cur h5 hne
                victim hv2 with hvic | hfin
            · have hnf := nextPosOf_neg_one_no_future tr cur i victim
                (fun idx e hx hy => Nat.le_of_lt (hc victim idx e hx hy))
                hvic
              exact reqBefore_of_none y0 victim T
                (firstOcc_drop_of_no_future tr T i victim hT hnf)
            · obtain ⟨hvne, hvle⟩ := hfin victim hvicfr
              have hv0 : 0 ≤ nextPosOf (buildPositions tr) cur i victim := by
                rcases nextPosOf_shape (buildPositions tr) cur i victim with
                  h0 | h0
                · exact absurd h0 hvne
                · exact h0
              obtain ⟨hy0ne, hy0le⟩ := hfin y0 hy0fr
              have hb0 : 0 ≤ nextPosOf (buildPositions tr) cur i y0 := by
                rcases nextPosOf_shape (buildPositions tr) cur i y0 with
                  h0 | h0
                · exact absurd h0 hy0ne
                · exact h0
              have hMa : nextPosOf (buildPositions tr) cur i victim =
                  ((nextPosOf (buildPositions tr) cur i victim).toNat :
                    Int) := (Int.toNat_of_nonneg hv0).symm
              have hJb : nextPosOf (buildPositions tr) cur i y0 =
                  ((nextPosOf (buildPositions tr) cur i y0).toNat :
                    Int) := (Int.toNat_of_nonneg hb0).symm
              obtain ⟨hia, hja, hmina⟩ := nextPosOf_coe_first_future tr cur
                i victim _
                (fun idx e hx hy => Nat.le_of_lt (hc victim idx e hx hy)) hMa
              obtain ⟨hib, hjb, hminb⟩ := nextPosOf_coe_first_future tr cur
                i y0 _
                (fun idx e hx hy => Nat.le_of_lt (hc y0 idx e hx hy)) hJb
              have hfa := firstOcc_drop_of_first tr T i _ victim hT hia
                hja hmina
              have hfb := firstOcc_drop_of_first tr T i _ y0 hT hib
                hjb hminb
              refine reqBefore_of_le y0 victim T _ _ hfa hfb ?_
              have hleN : (nextPosOf (buildPositions tr) cur i y0).toNat ≤
                  (nextPosOf (buildPositions tr) cur i victim).toNat := by
                omega
              omega
          have hy0in : y0 ∈ fr.toFinset.erase victim :=
            Finset.mem_erase.mpr ⟨fun hcm => hvy hcm.symm, hy0F⟩
          have hvicin : victim ∈ fr.toFinset.erase y0 :=
            Finset.mem_erase.mpr ⟨hvy, hvicF⟩
          have hInsB : insert y0
              (insert r ((fr.toFinset.erase victim).erase y0)) =
              insert r (fr.toFinset.erase victim) := by
            rw [Finset.Insert.comm, Finset.insert_erase hy0in]
          have hInsA : insert victim
              (insert r ((fr.toFinset.erase victim).erase y0)) =
              insert r (fr.toFinset.erase y0) := by
            rw [Finset.Insert.comm, Finset.erase_right_comm,
              Finset.insert_erase hvicin]
          have haD : victim ∉
              insert r ((fr.toFinset.erase victim).erase y0) := by
            rw [Finset.mem_insert]
            push_neg
            refine ⟨hrvic, fun hcm => ?_⟩
            exact Finset.not_mem_erase victim _
              (Finset.mem_of_mem_erase hcm)
          have hbD : y0 ∉
              insert r ((fr.toFinset.erase victim).erase y0) := by
            rw [Finset.mem_insert]
            push_neg
            exact ⟨hry0, Finset.not_mem_erase y0 _⟩
          have hex := optCost_farthest nfI.toNat T.length T (le_refl _)
            (insert r ((fr.toFinset.erase victim).erase y0)) victim y0
            hvy haD hbD hreq
          rw [hInsB, hInsA] at hex
          exact hex
      omega

/-- The implemented optimal simulator never exceeds the best possible
fault count from its current state. -/
theorem optimalRun_le_optCost (tr : List PageID) (nfI : Int)
    (hn : 1 ≤ nfI) (d : Bool) :
    ∀ (suffix : List PageID) (i : Nat) (st : OptState)
      (seen : List PageID), tr = seen ++ suffix → i = seen.length →
      OptInv nfI seen st →
      (∀ q idx e, idx < st.nextUseCursor q →
        (posGet (buildPositions tr) q)[idx]? = some e → e < i) →
      ∀ st' evs, optimalRun (buildPositions tr) nfI d i st suffix =
          some (st', evs) →
        st'.pageFaults ≤
          optCost nfI.toNat suffix st.frames.toFinset + st.pageFaults
  | [], i, st, seen, htr, hi, hinv, hc, st', evs, hrun => by
    have hst' : st' = st := by
      simp [optimalRun] at hrun
      exact hrun.1.symm
    subst hst'
    simp [optCost]
  | r :: T, i, st, seen, htr, hi, hinv, hc, st', evs, hrun => by
    obtain ⟨st1, evs1, hstep, hinv1, _⟩ :=
      optimalStep_inv (buildPositions tr) nfI hn d i st r seen hinv
    have hrun' : ∃ evs2,
        optimalRun (buildPositions tr) nfI d (i + 1) st1 T =
          some (st', evs2) := by
      rw [optimalRun, hstep] at hrun
      dsimp only at hrun
      cases hR : optimalRun (buildPositions tr) nfI d (i + 1) st1 T with
      | none =>
        rw [hR] at hrun
        simp at hrun
      | some p =>
        obtain ⟨p1, p2⟩ := p
        rw [hR] at hrun
        simp only [Option.some.injEq, Prod.mk.injEq] at hrun
        exact ⟨p2, by rw [← hrun.1]⟩
    obtain ⟨evs2, hrun2⟩ := hrun'
    have hstep_cost := optimalStep_le_optCost tr nfI hn d i T st r seen
      htr hi hinv hc st1 evs1 hstep
    have hc1 := optimalStep_curok (buildPositions tr) nfI hn d i st r hc
      st1 evs1 hstep
    have hrec := optimalRun_le_optCost tr nfI hn d T (i + 1) st1
      (seen ++ [r]) (by rw [htr]; simp) (by simp [hi]) hinv1 hc1
      st' evs2 hrun2
    omega

/-- The implemented optimal simulator attains the best possible fault
count on a whole trace. -/
theorem optimalAlgorithm_le_optCost (tr : List PageID) (nfI : Int)
    (hn : 1 ≤ nfI) (d : Bool) :
    ∃ r evs, optimalAlgorithmOptimized tr nfI (buildPositions tr) d =
        some (r, evs) ∧ r.pageFaults ≤ optCost nfI.toNat tr ∅ := by
  obtain ⟨st', evs, hrun, _, _⟩ :=
    optimalRun_inv (buildPositions tr) nfI hn d tr 0 optInit []
      (optInv_init nfI hn)
  refine ⟨⟨st'.pageFaults, st'.loadCounts⟩, evs,
    by simp [optimalAlgorithmOptimized, hrun], ?_⟩
  have h1 := optimalRun_le_optCost tr nfI hn d tr 0 optInit []
    (by simp) rfl (optInv_init nfI hn)
    (by
      intro q idx e h1 _
      simp [optInit] at h1)
    st' evs hrun
  simpa [optInit] using h1

/-- Claim C3: for every trace and every `numFrames ≥ 1`, the fault
count reported by `optimalAlgorithmOptimized` (run with the
`PositionIndex` built from that trace) is at most the fault count
reported by `fifoAlgorithm` on the same trace and frame count —
Belady's optimality bound. -/
theorem claim3_theorem (tr : List PageID) (nfI : Int) (hn : 1 ≤ nfI)
    (d : Bool) :
    ∃ rOpt evsOpt rFifo evsFifo,
      optimalAlgorithmOptimized tr nfI (buildPositions tr) d =
        some (rOpt, evsOpt) ∧
      fifoAlgorithm tr nfI d = some (rFifo, evsFifo) ∧
      rOpt.pageFaults ≤ rFifo.pageFaults := by
  obtain ⟨rOpt, evsO, hO, hO2⟩ := optimalAlgorithm_le_optCost tr nfI hn d
  obtain ⟨rF, evsF, hF, hF2⟩ := optCost_le_fifoAlgorithm tr nfI hn d
  exact ⟨rOpt, evsO, rF, evsF, hO, hF, le_trans hO2 hF2⟩

/-- Claim C3, witness: the bound instantiated on the trace
`[A, B, A]` with `numFrames = 1`. -/
theorem claim3_witness :
    (1 : Int) ≤ 1 ∧
    (∃ rOpt evsOpt rFifo evsFifo,
      optimalAlgorithmOptimized ["A", "B", "A"] 1
          (buildPositions ["A", "B", "A"]) false = some (rOpt, evsOpt) ∧
      fifoAlgorithm ["A", "B", "A"] 1 false = some (rFifo, evsFifo) ∧
      rOpt.pageFaults ≤ rFifo.pageFaults) :=
  ⟨by decide, claim3_theorem ["A", "B", "A"] 1 (by decide) false⟩
